import Mathlib

/-!
# imageresizer: a verification development of `main.go`

The program reads a directory, keeps the entries whose lower-cased name ends in
`.jpg` or `.png`, starts one goroutine per kept entry (each runs `resizeImage`
and prints one status line), and waits on a `sync.WaitGroup` through a helper
goroutine that closes the `done` channel.

The embedding has three layers.

* Pure helpers of the source: `ToLower`, `HasSuffix`, the `uint`/`int`
  conversions, the dispatch guard of line 56.
* `resizeImage` and the goroutine body, as functions that return the sequence
  of calls they make (with the result of each call) next to their result.
  Everything outside the repository (file system, codecs, resampler,
  `filepath.Join`, the Unicode case table) is a field of `Env`.
* `main` as a transition system: `mainInit` is the sequential part of `main`
  up to line 53, `step` lets one goroutine (main, the waiter, or a worker)
  take one step, and `exec` runs a schedule.  Every statement about "all
  interleavings" quantifies over schedules.
-/

namespace ImageResizer

/-! ## Strings -/

/-- A Go string, as the sequence of its runes. -/
abbrev Str := List Char

/-- The ASCII branch of `unicode.ToLower`: `A`..`Z` move to `a`..`z`. -/
def asciiLower (c : Char) : Char :=
  if 65 ≤ c.toNat ∧ c.toNat ≤ 90 then Char.ofNat (c.toNat + 32) else c

/-- Go's `unicode.ToLower` on one rune: ASCII runes are lowered by arithmetic, the
others through the Unicode case table `tbl`, which is not part of the repository. -/
def toLowerRune (tbl : Char → Char) (c : Char) : Char :=
  if c.toNat < 128 then asciiLower c else tbl c

/-- Go's `strings.ToLower`: every rune is mapped by `unicode.ToLower`. -/
def ToLower (tbl : Char → Char) (s : Str) : Str :=
  s.map (toLowerRune tbl)

/-- Go's `strings.HasSuffix`:
`len(s) >= len(suffix) && s[len(s)-len(suffix):] == suffix`. -/
def HasSuffix (s suffix : Str) : Bool :=
  decide (suffix.length ≤ s.length) && (s.drop (s.length - suffix.length) == suffix)

/-- The package variable `jpgExtensions` (line 21). -/
def jpgExtensions : Str := ".jpg".toList

/-- The package variable `pngExtensions` (line 22). -/
def pngExtensions : Str := ".png".toList

/-! ## Machine integers -/

/-- The conversion `int(u)` of a `uint` of `bits` bits: the same bit pattern read as a
two's complement number. -/
def intOfUint (bits : Nat) (u : Nat) : Int :=
  if u % 2 ^ bits < 2 ^ (bits - 1) then ((u % 2 ^ bits : Nat) : Int)
  else ((u % 2 ^ bits : Nat) : Int) - ((2 ^ bits : Nat) : Int)

/-- The conversion `uint(i)` of an `int` of `bits` bits: the same bit pattern read as an
unsigned number. -/
def uintOfInt (bits : Nat) (i : Int) : Nat :=
  (i % ((2 ^ bits : Nat) : Int)).toNat

/-! ## The environment and the calls the program makes -/

/-- An entry of a directory listing (`os.FileInfo`): the two methods `main` calls. -/
structure FileInfo where
  name : Str
  isDir : Bool
deriving DecidableEq

/-- A decoded image: its bounds and its pixel data. -/
structure Image where
  dx : Nat
  dy : Nat
  pix : List Nat
deriving DecidableEq

/-- What lies outside the repository.  An `Option Str` result is a Go `error`:
`none` is `nil`, `some msg` an error whose text is `msg`. -/
structure Env where
  /-- Number of bits of `int` and `uint` (32 or 64 on the platforms Go supports). -/
  intSize : Nat
  /-- The Unicode lower-case table, used by `strings.ToLower` on non-ASCII runes. -/
  unicodeLower : Char → Char
  /-- The function `filepath.Join` on two elements. -/
  join : Str → Str → Str
  /-- The function `ioutil.ReadDir`. -/
  readDir : Str → Except Str (List FileInfo)
  /-- The function `os.MkdirAll` with `os.ModePerm`. -/
  mkdirAll : Str → Option Str
  /-- The function `os.Open`. -/
  osOpen : Str → Option Str
  /-- The function `image.Decode` on the opened file at this path. -/
  decode : Str → Except Str Image
  /-- The function `resize.Resize` with the `Lanczos3` filter. -/
  resize : Nat → Nat → Image → Image
  /-- The function `os.Create`. -/
  osCreate : Str → Option Str
  /-- The function `png.Encode` into the created file at this path. -/
  pngEncode : Str → Image → Option Str
  /-- The function `jpeg.Encode` with `nil` options into the created file at this path. -/
  jpegEncode : Str → Image → Option Str

/-- A call made by the program, with its arguments and, where it has one, its result. -/
inductive Event where
  | stdout (text : Str)
  | printDefaults
  | readDir (dir : Str) (err : Option Str)
  | mkdirAll (dir : Str) (err : Option Str)
  | osOpen (path : Str) (err : Option Str)
  | decode (path : Str) (err : Option Str)
  | resize (width height : Nat)
  | osCreate (path : Str) (err : Option Str)
  | pngEncode (path : Str) (img : Image) (err : Option Str)
  | jpegEncode (path : Str) (img : Image) (err : Option Str)
  | close (path : Str)
  | wgAdd
  | wgDone
  | wgWait
  | closeDone
  | recvDone
deriving DecidableEq

/-! ## `resizeImage` (lines 84-117) -/

/-- The function `resizeImage`: the calls it makes, in order, and the error it returns.
The two deferred `Close` calls run on return, the later one first. -/
def resizeImage (env : Env) (inputPath outputPath : Str) (width height : Int) :
    List Event × Option Str :=
  match env.osOpen inputPath with
  | some err => ([.osOpen inputPath (some err)], some err)
  | none =>
    match env.decode inputPath with
    | .error err =>
      ([.osOpen inputPath none, .decode inputPath (some err), .close inputPath], some err)
    | .ok img =>
      let w := uintOfInt env.intSize width
      let h := uintOfInt env.intSize height
      let resizedImg := env.resize w h img
      match env.osCreate outputPath with
      | some err =>
        ([.osOpen inputPath none, .decode inputPath none, .resize w h,
          .osCreate outputPath (some err), .close inputPath], some err)
      | none =>
        if HasSuffix (ToLower env.unicodeLower outputPath) pngExtensions then
          let err := env.pngEncode outputPath resizedImg
          ([.osOpen inputPath none, .decode inputPath none, .resize w h,
            .osCreate outputPath none, .pngEncode outputPath resizedImg err,
            .close outputPath, .close inputPath], err)
        else
          let err := env.jpegEncode outputPath resizedImg
          ([.osOpen inputPath none, .decode inputPath none, .resize w h,
            .osCreate outputPath none, .jpegEncode outputPath resizedImg err,
            .close outputPath, .close inputPath], err)

/-! ## `main` (lines 25-82) -/

/-- The command-line flags after `flag.Parse`. -/
structure Flags where
  inputDir : Str
  outputDir : Str
  targetWidth : Nat
  targetHeight : Nat

/-- Lines 27-31: each flag takes its value from the command line when it is supplied and
its declared default otherwise. -/
def parseFlags (input output : Option Str) (width height : Option Nat) : Flags :=
  { inputDir := input.getD "input_images".toList
    outputDir := output.getD "output_images".toList
    targetWidth := width.getD 0
    targetHeight := height.getD 0 }

/-- The guard of line 56. -/
def eligible (env : Env) (file : FileInfo) : Bool :=
  !file.isDir &&
    (HasSuffix (ToLower env.unicodeLower file.name) jpgExtensions ||
      HasSuffix (ToLower env.unicodeLower file.name) pngExtensions)

/-- The status line of lines 66-70 for a file and the result of its `resizeImage`. -/
def statusLine (name : Str) (err : Option Str) : Str :=
  match err with
  | some e => "Error resizing image ".toList ++ name ++ ": ".toList ++ e ++ "\n".toList
  | none => "Successfully resized: ".toList ++ name ++ "\n".toList

/-- The input path of line 62. -/
def inputPath (env : Env) (fl : Flags) (file : FileInfo) : Str :=
  env.join fl.inputDir file.name

/-- The output path of line 63. -/
def outputPath (env : Env) (fl : Flags) (file : FileInfo) : Str :=
  env.join fl.outputDir file.name

/-- The call of line 65. -/
def jobResult (env : Env) (fl : Flags) (file : FileInfo) : List Event × Option Str :=
  resizeImage env (inputPath env fl file) (outputPath env fl file)
    (intOfUint env.intSize fl.targetWidth) (intOfUint env.intSize fl.targetHeight)

/-- The body of the goroutine of lines 59-72 before its deferred `wg.Done`: the calls of
`resizeImage`, then the one status line. -/
def workerBody (env : Env) (fl : Flags) (file : FileInfo) : List Event :=
  (jobResult env fl file).1 ++ [.stdout (statusLine file.name (jobResult env fl file).2)]

/-- A goroutine of the program. -/
inductive Tid where
  | main
  | waiter
  | worker (i : Nat)
deriving DecidableEq

/-- Where `main` stands: in the loop of lines 55-74, at the receive of line 81, or
returned. -/
inductive MainPc where
  | loop
  | recv
  | returned
deriving DecidableEq

/-- Where the goroutine of lines 76-79 stands: not started, blocked in `wg.Wait`,
between `wg.Wait` and `close(done)`, or finished. -/
inductive WaiterPc where
  | notStarted
  | waiting
  | woken
  | finished
deriving DecidableEq

/-- A worker goroutine: the entry it was started for, the calls of its body it has yet
to make, and whether its deferred `wg.Done` has run. -/
structure Worker where
  file : FileInfo
  todo : List Event
  done : Bool
deriving DecidableEq

/-- The state of a run. -/
structure State where
  pc : MainPc
  /-- Entries of the listing the loop has not visited yet. -/
  pending : List FileInfo
  /-- Worker goroutines, in the order they were started. -/
  workers : List Worker
  /-- The counter of the wait group. -/
  counter : Nat
  waiter : WaiterPc
  /-- Whether the channel `done` is closed. -/
  doneClosed : Bool
  /-- Every call made so far, oldest first, with the goroutine that made it. -/
  trace : List (Tid × Event)
deriving DecidableEq

/-- The message of line 35. -/
def usageError : Str :=
  ("Error: Please provide valid values for input directory, output directory, " ++
    "width, and height.\n").toList

/-- A state in which `main` has returned before the loop, having made the calls `tr`. -/
def returnedEarly (tr : List Event) : State :=
  { pc := .returned, pending := [], workers := [], counter := 0, waiter := .notStarted,
    doneClosed := false, trace := tr.map (fun e => (Tid.main, e)) }

/-- Lines 33-53 of `main`: the state on entry to the loop, or the state in which `main`
has returned early. -/
def mainInit (env : Env) (fl : Flags) : State :=
  if fl.inputDir = [] ∨ fl.outputDir = [] ∨ fl.targetWidth = 0 ∨ fl.targetHeight = 0 then
    returnedEarly [.stdout usageError, .printDefaults]
  else
    match env.readDir fl.inputDir with
    | .error err =>
      returnedEarly [.readDir fl.inputDir (some err),
        .stdout ("Error reading input directory: ".toList ++ err ++ "\n".toList)]
    | .ok files =>
      match env.mkdirAll fl.outputDir with
      | some err =>
        returnedEarly [.readDir fl.inputDir none, .mkdirAll fl.outputDir (some err),
          .stdout ("Error creating output directory: ".toList ++ err ++ "\n".toList)]
      | none =>
        { pc := .loop, pending := files, workers := [], counter := 0,
          waiter := .notStarted, doneClosed := false,
          trace := [(.main, .readDir fl.inputDir none), (.main, .mkdirAll fl.outputDir none)] }

/-- One step of the goroutine `t`, or `none` when `t` cannot move (it is blocked, has
finished, does not exist, or the process has exited because `main` returned).

* `main` in the loop visits the next entry: for an eligible one it calls `wg.Add(1)` and
  starts a worker; after the last entry it starts the waiter and blocks on `<-done`,
  which it passes once the channel is closed.
* The waiter returns from `wg.Wait` when the counter is zero, then closes `done`.
* A worker makes the next call of its body, and after the last one runs `wg.Done`. -/
def step (env : Env) (fl : Flags) (s : State) : Tid → Option State
  | .main =>
    match s.pc with
    | .loop =>
      match s.pending with
      | file :: rest =>
        if eligible env file then
          some { s with
            pending := rest
            counter := s.counter + 1
            workers := s.workers ++ [{ file := file, todo := workerBody env fl file, done := false }]
            trace := s.trace ++ [(.main, .wgAdd)] }
        else
          some { s with pending := rest }
      | [] => some { s with pc := .recv, waiter := .waiting }
    | .recv =>
      if s.doneClosed then
        some { s with pc := .returned, trace := s.trace ++ [(.main, .recvDone)] }
      else none
    | .returned => none
  | .waiter =>
    if s.pc = .returned then none
    else
      match s.waiter with
      | .notStarted => none
      | .waiting =>
        if s.counter = 0 then
          some { s with waiter := .woken, trace := s.trace ++ [(.waiter, .wgWait)] }
        else none
      | .woken =>
        some { s with waiter := .finished, doneClosed := true,
                      trace := s.trace ++ [(.waiter, .closeDone)] }
      | .finished => none
  | .worker i =>
    if s.pc = .returned then none
    else
      match s.workers.get? i with
      | none => none
      | some w =>
        match w.todo with
        | e :: rest =>
          some { s with
            workers := s.workers.set i { w with todo := rest }
            trace := s.trace ++ [(.worker i, e)] }
        | [] =>
          if w.done then none
          else
            some { s with
              workers := s.workers.set i { w with done := true }
              counter := s.counter - 1
              trace := s.trace ++ [(.worker i, .wgDone)] }

/-- Runs a schedule: the goroutines named by `sched` step one after the other.  The
result is `none` when the schedule names a goroutine that cannot move. -/
def exec (env : Env) (fl : Flags) : List Tid → State → Option State
  | [], s => some s
  | t :: ts, s =>
    match step env fl s t with
    | none => none
    | some s' => exec env fl ts s'

/-- The calls the goroutine `t` has made, in order. -/
def callsOf (t : Tid) (tr : List (Tid × Event)) : List Event :=
  (tr.filter (fun x => decide (x.1 = t))).map (fun x => x.2)


/-! ## Derived notions used by the statements -/

/-- The whole program of a worker goroutine: its body, then the deferred `wg.Done`. -/
def workerProg (env : Env) (fl : Flags) (file : FileInfo) : List Event :=
  workerBody env fl file ++ [.wgDone]

/-- The calls a worker still has to make: the rest of its body, then `wg.Done` unless it
has run already. -/
def Worker.rest (w : Worker) : List Event :=
  w.todo ++ (if w.done then [] else [.wgDone])

/-- The calls `main` has made once the listing is read and the output directory exists,
as a function of the state: one `wg.Add` per worker started, and the receive on `done`
when `main` has returned. -/
def mainCalls (fl : Flags) (s : State) : List Event :=
  [.readDir fl.inputDir none, .mkdirAll fl.outputDir none] ++
    List.replicate s.workers.length .wgAdd ++
    (if s.pc = .returned then [.recvDone] else [])

/-- The calls the waiter goroutine has made, as a function of where it stands. -/
def waiterCalls (s : State) : List Event :=
  match s.waiter with
  | .notStarted => []
  | .waiting => []
  | .woken => [.wgWait]
  | .finished => [.wgWait, .closeDone]

/-- The eligible entries of a listing, in order: the File Jobs of a run. -/
def jobs (env : Env) (files : List FileInfo) : List FileInfo :=
  files.filter (eligible env)

/-- The entries for which a worker has been started, in the order they were started. -/
def dispatched (s : State) : List FileInfo :=
  s.workers.map (fun w => w.file)

/-- The run gets past lines 33-50 with the listing `files`: the flags are valid, the
input directory is read and the output directory is created. -/
def ReachesDispatch (env : Env) (fl : Flags) (files : List FileInfo) : Prop :=
  fl.inputDir ≠ [] ∧ fl.outputDir ≠ [] ∧ fl.targetWidth ≠ 0 ∧ fl.targetHeight ≠ 0 ∧
    env.readDir fl.inputDir = .ok files ∧ env.mkdirAll fl.outputDir = none

/-- The state `s` is reached from the start of `main` by some schedule. -/
def Reachable (env : Env) (fl : Flags) (s : State) : Prop :=
  ∃ sched, exec env fl sched (mainInit env fl) = some s

/-- The number of steps left in a run: one per entry still to visit, one per call still
to make by a worker that exists or will be started, and the steps left to `main` and to
the waiter. -/
def fuel (env : Env) (fl : Flags) (s : State) : Nat :=
  (s.pending.map
      (fun f => if eligible env f then (workerProg env fl f).length + 1 else 1)).sum +
    (s.workers.map (fun w => w.rest.length)).sum +
    (match s.pc with | .loop => 2 | .recv => 1 | .returned => 0) +
    (match s.waiter with | .notStarted => 2 | .waiting => 2 | .woken => 1 | .finished => 0)

/-- The paths of the files the calls `evs` created (successful `os.Create`). -/
def filesCreated (evs : List Event) : List Str :=
  evs.filterMap (fun e => match e with | .osCreate p none => some p | _ => none)

/-- The texts the calls `evs` wrote to standard output. -/
def linesOf (evs : List Event) : List Str :=
  evs.filterMap (fun e => match e with | .stdout text => some text | _ => none)

/-- The dimensions the calls `evs` handed to the resampler. -/
def resizeArgs (evs : List Event) : List (Nat × Nat) :=
  evs.filterMap (fun e => match e with | .resize w h => some (w, h) | _ => none)

/-- The extension of a path as Go's `filepath.Ext` defines it: the suffix that starts at
the last dot of the last slash-separated element, empty when that element has no dot.
The scan runs over the reversed path and `acc` holds the runes already passed. -/
def extScan : List Char → List Char → Str
  | [], _ => []
  | c :: rest, acc =>
    if c = '/' then [] else if c = '.' then '.' :: acc else extScan rest (c :: acc)

/-- Go's `filepath.Ext`. -/
def Ext (path : Str) : Str :=
  extScan path.reverse []

/-- One step of a run, as a relation: `Step env fl s t s'` when the goroutine `t` can take
`s` to `s'`.  It is `step` read as a set of rules. -/
inductive Step (env : Env) (fl : Flags) : State → Tid → State → Prop where
  | spawn (s : State) (file : FileInfo) (rest : List FileInfo) :
      s.pc = .loop → s.pending = file :: rest → eligible env file = true →
      Step env fl s .main { s with
        pending := rest
        counter := s.counter + 1
        workers := s.workers ++ [{ file := file, todo := workerBody env fl file, done := false }]
        trace := s.trace ++ [(.main, .wgAdd)] }
  | skip (s : State) (file : FileInfo) (rest : List FileInfo) :
      s.pc = .loop → s.pending = file :: rest → eligible env file = false →
      Step env fl s .main { s with pending := rest }
  | loopEnd (s : State) :
      s.pc = .loop → s.pending = [] →
      Step env fl s .main { s with pc := .recv, waiter := .waiting }
  | recv (s : State) :
      s.pc = .recv → s.doneClosed = true →
      Step env fl s .main { s with pc := .returned, trace := s.trace ++ [(.main, .recvDone)] }
  | wake (s : State) :
      s.pc ≠ .returned → s.waiter = .waiting → s.counter = 0 →
      Step env fl s .waiter { s with waiter := .woken, trace := s.trace ++ [(.waiter, .wgWait)] }
  | close (s : State) :
      s.pc ≠ .returned → s.waiter = .woken →
      Step env fl s .waiter { s with waiter := .finished, doneClosed := true,
                                     trace := s.trace ++ [(.waiter, .closeDone)] }
  | call (s : State) (i : Nat) (w : Worker) (e : Event) (rest : List Event) :
      s.pc ≠ .returned → s.workers[i]? = some w → w.todo = e :: rest →
      Step env fl s (.worker i) { s with
        workers := s.workers.set i { w with todo := rest }
        trace := s.trace ++ [(.worker i, e)] }
  | done (s : State) (i : Nat) (w : Worker) :
      s.pc ≠ .returned → s.workers[i]? = some w → w.todo = [] → w.done = false →
      Step env fl s (.worker i) { s with
        workers := s.workers.set i { w with done := true }
        counter := s.counter - 1
        trace := s.trace ++ [(.worker i, .wgDone)] }

/-- The invariant of a run that reached the loop with the listing `files`. -/
structure Inv (env : Env) (fl : Flags) (files : List FileInfo) (s : State) : Prop where
  /-- The workers started and the eligible entries still to visit make up the jobs. -/
  jobsEq : dispatched s ++ s.pending.filter (eligible env) = jobs env files
  /-- A worker has made a beginning of its program and has the rest of it to make. -/
  calls : ∀ i w, s.workers[i]? = some w →
    callsOf (.worker i) s.trace ++ w.rest = workerProg env fl w.file
  /-- No call is attributed to a worker that was not started. -/
  fresh : ∀ i, s.workers.length ≤ i → callsOf (.worker i) s.trace = []
  /-- A worker runs `wg.Done` last. -/
  doneLast : ∀ w ∈ s.workers, w.done = true → w.todo = []
  /-- The counter of the wait group is the number of workers that have not run `wg.Done`. -/
  counterEq : s.counter = s.workers.countP (fun w => !w.done)
  /-- The waiter is started exactly when `main` leaves the loop. -/
  waiterStarted : s.pc = .loop ↔ s.waiter = .notStarted
  /-- Past the loop no entry is left to visit. -/
  pendingNil : s.pc ≠ .loop → s.pending = []
  /-- When `wg.Wait` has returned the counter is zero. -/
  wokenZero : s.waiter = .woken ∨ s.waiter = .finished → s.counter = 0
  /-- The channel is closed exactly when the waiter has finished. -/
  closedIff : s.doneClosed = true ↔ s.waiter = .finished
  /-- The receive of line 81 is the last call of a run, once the channel is closed. -/
  returnedLast : s.pc = .returned →
    s.doneClosed = true ∧ ∃ tr, s.trace = tr ++ [(.main, .recvDone)]
  /-- The calls made and the calls still to make are, up to order, the program of every
  goroutine. -/
  perm : (s.trace.map (fun x => x.2) ++ (s.workers.map Worker.rest).flatten).Perm
    (mainCalls fl s ++ waiterCalls s ++
      (s.workers.map (fun w => workerProg env fl w.file)).flatten)

/-- Whether `image.Decode` succeeds on the file at this path. -/
def decodes (env : Env) (path : Str) : Bool :=
  match env.decode path with
  | .ok _ => true
  | .error _ => false

/-- Whether the job of an entry gets as far as creating its output file: the input opens
and decodes and `os.Create` succeeds. -/
def createsOutput (env : Env) (fl : Flags) (file : FileInfo) : Bool :=
  (env.osOpen (inputPath env fl file)).isNone && decodes env (inputPath env fl file) &&
    (env.osCreate (outputPath env fl file)).isNone

/-- The two encoders of lines 107 and 109. -/
inductive Format where
  | png
  | jpeg
deriving DecidableEq

/-- The encoders the calls `evs` ran, in order. -/
def encodersUsed (evs : List Event) : List Format :=
  evs.filterMap (fun e =>
    match e with
    | .pngEncode _ _ _ => some Format.png
    | .jpegEncode _ _ _ => some Format.jpeg
    | _ => none)

/-- The images the calls `evs` handed to an encoder, each with the path it was written
to. -/
def imagesEncoded (evs : List Event) : List (Str × Image) :=
  evs.filterMap (fun e =>
    match e with
    | .pngEncode p img _ => some (p, img)
    | .jpegEncode p img _ => some (p, img)
    | _ => none)

/-- The calls of a trace without the goroutine that made them. -/
def callsIn (tr : List (Tid × Event)) : List Event :=
  tr.map (fun x => x.2)

/-- Eligibility as the specification words it: a regular file whose lower-cased name has
one of the extensions `.jpg`, `.jpeg`, `.png`. -/
def specEligible (env : Env) (file : FileInfo) : Bool :=
  !file.isDir &&
    (HasSuffix (ToLower env.unicodeLower file.name) ".jpg".toList ||
      HasSuffix (ToLower env.unicodeLower file.name) ".jpeg".toList ||
      HasSuffix (ToLower env.unicodeLower file.name) ".png".toList)

/-- Two environments that agree everywhere except, possibly, on the file-system and codec
calls at the input path `inP` and at the output path `outP`. -/
def AgreeExcept (env1 env2 : Env) (inP outP : Str) : Prop :=
  env1.intSize = env2.intSize ∧ env1.unicodeLower = env2.unicodeLower ∧
    env1.join = env2.join ∧ env1.resize = env2.resize ∧
    env1.readDir = env2.readDir ∧ env1.mkdirAll = env2.mkdirAll ∧
    (∀ p, p ≠ inP → env1.osOpen p = env2.osOpen p ∧ env1.decode p = env2.decode p) ∧
    (∀ p, p ≠ outP → env1.osCreate p = env2.osCreate p ∧
      env1.pngEncode p = env2.pngEncode p ∧ env1.jpegEncode p = env2.jpegEncode p)

/-! ## A concrete run

A 64-bit platform, the input directory `in` with five entries, and a file `a.jpg` whose
content does not decode. -/

/-- The listing of the directory `in`. -/
def demoFiles : List FileInfo :=
  [⟨"a.jpg".toList, false⟩, ⟨"c.txt".toList, false⟩, ⟨"B.PNG".toList, false⟩,
   ⟨"x.jpg".toList, true⟩, ⟨"photo.jpeg".toList, false⟩, ⟨"PHOTO.JPEG".toList, false⟩]

/-- An environment in which every call succeeds except the decoding of `in/a.jpg`. -/
def demoEnv : Env :=
  { intSize := 64
    unicodeLower := fun c => c
    join := fun d n => d ++ "/".toList ++ n
    readDir := fun d =>
      if d = "in".toList then .ok demoFiles else .error "no such file or directory".toList
    mkdirAll := fun _ => none
    osOpen := fun _ => none
    decode := fun p =>
      if p = "in/a.jpg".toList then .error "image: unknown format".toList
      else .ok ⟨4, 3, []⟩
    resize := fun w h _ => ⟨w, h, []⟩
    osCreate := fun _ => none
    pngEncode := fun _ _ => none
    jpegEncode := fun _ _ => none }

/-- The environment `demoEnv`, except that `in/a.jpg` decodes. -/
def demoEnvOk : Env :=
  { demoEnv with decode := fun _ => .ok ⟨4, 3, []⟩ }

/-- The flags `--input in --output out --width 50 --height 50`. -/
def demoFlags : Flags :=
  parseFlags (some "in".toList) (some "out".toList) (some 50) (some 50)

/-- A schedule of a complete run on `demoFiles`: `main` goes through the loop and blocks,
the worker of `B.PNG` runs, then the worker of `a.jpg`, then the waiter, then `main`. -/
def demoSched : List Tid :=
  List.replicate 7 .main ++ List.replicate 9 (.worker 1) ++ List.replicate 5 (.worker 0) ++
    [.waiter, .waiter, .main]

/-- The state at the end of the run `demoSched` in `demoEnv`. -/
def demoFinal : State :=
  (exec demoEnv demoFlags demoSched (mainInit demoEnv demoFlags)).getD
    (mainInit demoEnv demoFlags)

/-- A schedule of a complete run on `demoFiles` when `a.jpg` decodes: the two workers
take turns. -/
def demoSchedOk : List Tid :=
  List.replicate 7 .main ++
    [.worker 0, .worker 1, .worker 0, .worker 1, .worker 0, .worker 1, .worker 0, .worker 1,
     .worker 0, .worker 1, .worker 0, .worker 1, .worker 0, .worker 1, .worker 0, .worker 1,
     .worker 0, .worker 1] ++
    [.waiter, .waiter, .main]

/-- The state at the end of the run `demoSchedOk` in `demoEnvOk`. -/
def demoFinalOk : State :=
  (exec demoEnvOk demoFlags demoSchedOk (mainInit demoEnvOk demoFlags)).getD
    (mainInit demoEnvOk demoFlags)

/-- The flags `--input nowhere --output out --width 50 --height 50`: the input directory
does not exist in `demoEnv`. -/
def demoFlagsNoInput : Flags :=
  parseFlags (some "nowhere".toList) (some "out".toList) (some 50) (some 50)

/-- The environment `demoEnv`, except that the output directory cannot be created. -/
def demoEnvNoOutput : Env :=
  { demoEnv with mkdirAll := fun _ => some "permission denied".toList }

/-- The flags `--input in --output out --width 9223372036854775813 --height 50`: the
width is above the largest signed 64-bit value. -/
def demoFlagsHuge : Flags :=
  parseFlags (some "in".toList) (some "out".toList) (some (2 ^ 63 + 5)) (some 50)

/-- The environment `demoEnvOk`, except that the resampler returns an image of the
requested size only when both dimensions fit a signed 64-bit `int`, and its input
otherwise: the bounds of a Go image are `int`s, so no image is wider or higher than the
largest `int`. -/
def demoEnvIntBound : Env :=
  { demoEnvOk with
    resize := fun w h img => if w < 2 ^ 63 ∧ h < 2 ^ 63 then ⟨w, h, []⟩ else img }

/-- The state at the end of the run `demoSchedOk` in `demoEnvIntBound` with
`demoFlagsHuge`. -/
def demoFinalHuge : State :=
  (exec demoEnvIntBound demoFlagsHuge demoSchedOk (mainInit demoEnvIntBound demoFlagsHuge)).getD
    (mainInit demoEnvIntBound demoFlagsHuge)

/-! ## The step function and the step relation agree -/

theorem step_sound (env : Env) (fl : Flags) (s s' : State) (t : Tid)
    (h : step env fl s t = some s') : Step env fl s t s' := by
  cases t with
  | main =>
    simp only [step] at h
    split at h
    · split at h
      · split at h
        · rename_i file rest hpend hel
          cases h
          exact Step.spawn s file rest (by assumption) hpend hel
        · rename_i file rest hpend hel
          cases h
          exact Step.skip s file rest (by assumption) hpend (by simpa using hel)
      · cases h
        exact Step.loopEnd s (by assumption) (by assumption)
    · split at h
      · cases h
        exact Step.recv s (by assumption) (by assumption)
      · cases h
    · cases h
  | waiter =>
    simp only [step] at h
    split at h
    · cases h
    · split at h
      · cases h
      · split at h
        · cases h
          exact Step.wake s (by assumption) (by assumption) (by assumption)
        · cases h
      · cases h
        exact Step.close s (by assumption) (by assumption)
      · cases h
  | worker i =>
    simp only [step] at h
    split at h
    · cases h
    · split at h
      · cases h
      · rename_i w hw
        split at h
        · rename_i e rest htodo
          cases h
          exact Step.call s i w e rest (by assumption) (by simpa using hw) htodo
        · rename_i htodo
          split at h
          · cases h
          · rename_i hdone
            cases h
            exact Step.done s i w (by assumption) (by simpa using hw) htodo (by simpa using hdone)

theorem step_complete (env : Env) (fl : Flags) (s s' : State) (t : Tid)
    (h : Step env fl s t s') : step env fl s t = some s' := by
  cases h with
  | spawn file rest hpc hpend hel => simp [step, hpc, hpend, hel]
  | skip file rest hpc hpend hel => simp [step, hpc, hpend, hel]
  | loopEnd hpc hpend => simp [step, hpc, hpend]
  | recv hpc hcl => simp [step, hpc, hcl]
  | wake hpc hw hc => simp [step, hpc, hw, hc]
  | close hpc hw => simp [step, hpc, hw]
  | call i w e rest hpc hw htodo => simp [step, hpc, hw, htodo]
  | done i w hpc hw htodo hdone => simp [step, hpc, hw, htodo, hdone]

/-! ## Lists -/

theorem split_of_getElem? {α : Type} (l : List α) (i : Nat) (w : α) (h : l[i]? = some w) :
    ∃ l1 l2, l = l1 ++ w :: l2 ∧ l1.length = i := by
  induction l generalizing i with
  | nil => simp at h
  | cons a l ih =>
    cases i with
    | zero =>
      simp at h
      exact ⟨[], l, by simp [h], rfl⟩
    | succ i =>
      simp at h
      obtain ⟨l1, l2, h1, h2⟩ := ih i h
      exact ⟨a :: l1, l2, by simp [h1], by simp [h2]⟩

theorem set_split {α : Type} (l1 l2 : List α) (w x : α) :
    (l1 ++ w :: l2).set l1.length x = l1 ++ x :: l2 := by
  induction l1 with
  | nil => simp
  | cons a l1 ih => simp [ih]

theorem callsOf_append (t u : Tid) (e : Event) (tr : List (Tid × Event)) :
    callsOf t (tr ++ [(u, e)]) = callsOf t tr ++ (if u = t then [e] else []) := by
  by_cases h : u = t <;> simp [callsOf, List.filter_append, h]

theorem callsOf_nil (t : Tid) : callsOf t [] = [] := rfl

/-! ## The invariant -/

theorem mainInit_of_reachesDispatch (env : Env) (fl : Flags) (files : List FileInfo)
    (h : ReachesDispatch env fl files) :
    mainInit env fl =
      { pc := .loop, pending := files, workers := [], counter := 0,
        waiter := .notStarted, doneClosed := false,
        trace := [(.main, .readDir fl.inputDir none), (.main, .mkdirAll fl.outputDir none)] } := by
  obtain ⟨h1, h2, h3, h4, h5, h6⟩ := h
  simp [mainInit, h1, h2, h3, h4, h5, h6]

theorem inv_init (env : Env) (fl : Flags) (files : List FileInfo)
    (h : ReachesDispatch env fl files) : Inv env fl files (mainInit env fl) := by
  rw [mainInit_of_reachesDispatch env fl files h]
  constructor <;> simp [dispatched, jobs, callsOf, mainCalls, waiterCalls]

theorem inv_spawn (env : Env) (fl : Flags) (files : List FileInfo) (s : State)
    (file : FileInfo) (rest : List FileInfo) (hpc : s.pc = .loop)
    (hpend : s.pending = file :: rest) (hel : eligible env file = true)
    (h : Inv env fl files s) :
    Inv env fl files { s with
        pending := rest
        counter := s.counter + 1
        workers := s.workers ++ [{ file := file, todo := workerBody env fl file, done := false }]
        trace := s.trace ++ [(.main, .wgAdd)] } := by
  have hw : s.waiter = .notStarted := h.waiterStarted.mp hpc
  constructor
  · have := h.jobsEq
    simp [dispatched, hpend, hel, List.filter_cons] at this ⊢
    exact this
  · intro i w hi
    simp only at hi
    rw [callsOf_append]
    simp only [reduceCtorEq, if_false, List.append_nil]
    by_cases hlt : i < s.workers.length
    · rw [List.getElem?_append_left hlt] at hi
      exact h.calls i w hi
    · have hge : s.workers.length ≤ i := Nat.le_of_not_lt hlt
      rw [List.getElem?_append_right hge] at hi
      have hi0 : i - s.workers.length = 0 := by
        by_contra hne
        have : ([({ file := file, todo := workerBody env fl file, done := false } : Worker)])[i - s.workers.length]? = none := by
          apply List.getElem?_eq_none
          simp; omega
        rw [this] at hi; cases hi
      rw [hi0] at hi
      simp at hi
      subst hi
      rw [h.fresh i hge]
      simp [Worker.rest, workerProg]
  · intro i hi
    simp only [List.length_append, List.length_singleton] at hi
    rw [callsOf_append]
    simp only [reduceCtorEq, if_false, List.append_nil]
    exact h.fresh i (by omega)
  · intro w hw hd
    simp only [List.mem_append, List.mem_singleton] at hw
    rcases hw with hw | hw
    · exact h.doneLast w hw hd
    · subst hw; simp at hd
  · simp [List.countP_append, h.counterEq]
  · simpa using h.waiterStarted
  · intro hne; exact absurd hpc hne
  · intro hx; simp [hw] at hx
  · simpa using h.closedIff
  · intro hx; simp [hpc] at hx
  · have hp := h.perm
    rw [List.perm_iff_count] at hp ⊢
    intro a
    have := hp a
    simp only [mainCalls, waiterCalls, hpc, hw, List.map_append, List.flatten_append,
      List.count_append, List.length_append, List.replicate_add, List.replicate_one, List.map_cons, List.map_nil,
      List.flatten_cons, List.flatten_nil, List.append_nil, List.length_singleton,
      Worker.rest, workerProg, reduceCtorEq, if_false, List.count_nil] at this ⊢

    omega

theorem inv_skip (env : Env) (fl : Flags) (files : List FileInfo) (s : State)
    (file : FileInfo) (rest : List FileInfo)
    (hpend : s.pending = file :: rest) (hel : eligible env file = false)
    (h : Inv env fl files s) :
    Inv env fl files { s with pending := rest } := by
  constructor
  · have := h.jobsEq
    simp [dispatched, hpend, hel, List.filter_cons] at this ⊢
    exact this
  · exact h.calls
  · exact h.fresh
  · exact h.doneLast
  · exact h.counterEq
  · exact h.waiterStarted
  · intro hne
    have := h.pendingNil hne
    simp [hpend] at this
  · exact h.wokenZero
  · exact h.closedIff
  · exact h.returnedLast
  · exact h.perm

theorem inv_loopEnd (env : Env) (fl : Flags) (files : List FileInfo) (s : State)
    (hpc : s.pc = .loop) (hpend : s.pending = [])
    (h : Inv env fl files s) :
    Inv env fl files { s with pc := .recv, waiter := .waiting } := by
  have hw : s.waiter = .notStarted := h.waiterStarted.mp hpc
  have hcl : s.doneClosed = false := by
    cases hd : s.doneClosed with
    | false => rfl
    | true => have := h.closedIff.mp hd; simp [hw] at this
  constructor
  · exact h.jobsEq
  · exact h.calls
  · exact h.fresh
  · exact h.doneLast
  · exact h.counterEq
  · simp
  · intro _; exact hpend
  · intro hx; simp at hx
  · simp [hcl]
  · intro hx; simp at hx
  · have hp := h.perm
    simpa [mainCalls, waiterCalls, hpc, hw] using hp

theorem inv_recv (env : Env) (fl : Flags) (files : List FileInfo) (s : State)
    (hpc : s.pc = .recv) (hcl : s.doneClosed = true)
    (h : Inv env fl files s) :
    Inv env fl files { s with pc := .returned, trace := s.trace ++ [(.main, .recvDone)] } := by
  have hw : s.waiter = .finished := h.closedIff.mp hcl
  constructor
  · exact h.jobsEq
  · intro i w hi
    rw [callsOf_append]
    simpa using h.calls i w hi
  · intro i hi
    rw [callsOf_append]
    simpa using h.fresh i hi
  · exact h.doneLast
  · exact h.counterEq
  · simp [hw]
  · intro _; exact h.pendingNil (by simp [hpc])
  · exact h.wokenZero
  · exact h.closedIff
  · intro _; exact ⟨hcl, s.trace, rfl⟩
  · have hp := h.perm
    rw [List.perm_iff_count] at hp ⊢
    intro a
    have := hp a
    simp only [mainCalls, waiterCalls, hpc, hw, List.map_append, List.flatten_append,
      List.count_append, List.map_cons, List.map_nil,
      List.append_nil, reduceCtorEq, if_false, if_true, List.count_nil] at this ⊢
    omega

theorem inv_wake (env : Env) (fl : Flags) (files : List FileInfo) (s : State)
    (hw : s.waiter = .waiting) (hc : s.counter = 0)
    (h : Inv env fl files s) :
    Inv env fl files { s with waiter := .woken, trace := s.trace ++ [(.waiter, .wgWait)] } := by
  have hpc : s.pc ≠ .loop := by
    intro hx; have := h.waiterStarted.mp hx; simp [hw] at this
  have hcl : s.doneClosed = false := by
    cases hd : s.doneClosed with
    | false => rfl
    | true => have := h.closedIff.mp hd; simp [hw] at this
  constructor
  · exact h.jobsEq
  · intro i w hi
    rw [callsOf_append]
    simpa using h.calls i w hi
  · intro i hi
    rw [callsOf_append]
    simpa using h.fresh i hi
  · exact h.doneLast
  · exact h.counterEq
  · simp [hpc]
  · exact h.pendingNil
  · intro _; exact hc
  · simp [hcl]
  · intro hx
    have := (h.returnedLast hx).1
    simp [hcl] at this
  · have hp := h.perm
    rw [List.perm_iff_count] at hp ⊢
    intro a
    have := hp a
    simp only [mainCalls, waiterCalls, hw, List.map_append, List.flatten_append,
      List.count_append, List.map_cons, List.map_nil,
      List.append_nil, List.count_nil] at this ⊢
    omega

theorem inv_close (env : Env) (fl : Flags) (files : List FileInfo) (s : State)
    (hpr : s.pc ≠ .returned) (hw : s.waiter = .woken)
    (h : Inv env fl files s) :
    Inv env fl files { s with waiter := .finished, doneClosed := true,
                              trace := s.trace ++ [(.waiter, .closeDone)] } := by
  have hpc : s.pc ≠ .loop := by
    intro hx; have := h.waiterStarted.mp hx; simp [hw] at this
  constructor
  · exact h.jobsEq
  · intro i w hi
    rw [callsOf_append]
    simpa using h.calls i w hi
  · intro i hi
    rw [callsOf_append]
    simpa using h.fresh i hi
  · exact h.doneLast
  · exact h.counterEq
  · simp [hpc]
  · exact h.pendingNil
  · intro _; exact h.wokenZero (Or.inl hw)
  · simp
  · intro hx; exact absurd hx hpr
  · have hp := h.perm
    rw [List.perm_iff_count] at hp ⊢
    intro a
    have := hp a
    simp only [mainCalls, waiterCalls, hw, List.map_append, List.flatten_append,
      List.count_append, List.map_cons, List.map_nil, List.count_cons,
      List.append_nil, List.count_nil] at this ⊢
    omega

theorem inv_call (env : Env) (fl : Flags) (files : List FileInfo) (s : State)
    (i : Nat) (w : Worker) (e : Event) (rest : List Event)
    (hpr : s.pc ≠ .returned) (hi : s.workers[i]? = some w) (htodo : w.todo = e :: rest)
    (h : Inv env fl files s) :
    Inv env fl files { s with
        workers := s.workers.set i { w with todo := rest }
        trace := s.trace ++ [(.worker i, e)] } := by
  obtain ⟨l1, l2, hl, hlen⟩ := split_of_getElem? s.workers i w hi
  have hset : s.workers.set i { w with todo := rest } = l1 ++ { w with todo := rest } :: l2 := by
    rw [hl, ← hlen]; exact set_split l1 l2 w _
  have hmem : w ∈ s.workers := by rw [hl]; simp
  have hnd : w.done = false := by
    cases hd : w.done with
    | false => rfl
    | true => have := h.doneLast w hmem hd; simp [htodo] at this
  constructor
  · have := h.jobsEq
    simp only [dispatched, hset] at this ⊢
    rw [hl] at this
    simpa using this
  · intro j w2 hj
    simp only at hj
    rw [callsOf_append]
    by_cases hij : i = j
    · subst hij
      rw [List.getElem?_set] at hj
      simp only [if_true] at hj
      split at hj
      · cases hj
        have := h.calls i w hi
        simp only [Worker.rest, htodo, hnd] at this ⊢
        simpa using this
      · cases hj
    · rw [List.getElem?_set_ne hij] at hj
      have hne : ¬ (Tid.worker i = Tid.worker j) := by
        intro hx; cases hx; exact hij rfl
      simpa [hne] using h.calls j w2 hj
  · intro j hj
    simp only [List.length_set] at hj
    rw [callsOf_append]
    have hlt : i < s.workers.length := by
      rw [hl, ← hlen]; simp
    have hne : ¬ (Tid.worker i = Tid.worker j) := by
      intro hx; cases hx; omega
    simpa [hne] using h.fresh j hj
  · intro w2 hw2 hd
    simp only [hset, List.mem_append, List.mem_cons] at hw2
    rcases hw2 with hw2 | hw2 | hw2
    · exact h.doneLast w2 (by rw [hl]; simp [hw2]) hd
    · subst hw2; simp [hnd] at hd
    · exact h.doneLast w2 (by rw [hl]; simp [hw2]) hd
  · have := h.counterEq
    simp only [hset] at this ⊢
    rw [hl] at this
    simpa [List.countP_append, List.countP_cons] using this
  · exact h.waiterStarted
  · exact h.pendingNil
  · exact h.wokenZero
  · exact h.closedIff
  · intro hx; exact absurd hx hpr
  · have hp := h.perm
    rw [List.perm_iff_count] at hp ⊢
    intro a
    have := hp a
    simp only [hset, List.length_append, List.length_cons, mainCalls, waiterCalls] at this ⊢
    rw [hl] at this
    simp only [List.map_append, List.flatten_append,
      List.count_append, List.map_cons, List.map_nil, List.count_cons, List.flatten_cons,
      List.append_nil, List.count_nil, Worker.rest, htodo, hnd, List.length_append,
      List.length_cons] at this ⊢
    omega

theorem inv_done (env : Env) (fl : Flags) (files : List FileInfo) (s : State)
    (i : Nat) (w : Worker)
    (hpr : s.pc ≠ .returned) (hi : s.workers[i]? = some w) (htodo : w.todo = [])
    (hnd : w.done = false) (h : Inv env fl files s) :
    Inv env fl files { s with
        workers := s.workers.set i { w with done := true }
        counter := s.counter - 1
        trace := s.trace ++ [(.worker i, .wgDone)] } := by
  obtain ⟨l1, l2, hl, hlen⟩ := split_of_getElem? s.workers i w hi
  have hset : s.workers.set i { w with done := true } = l1 ++ { w with done := true } :: l2 := by
    rw [hl, ← hlen]; exact set_split l1 l2 w _
  constructor
  · have := h.jobsEq
    simp only [dispatched, hset] at this ⊢
    rw [hl] at this
    simpa using this
  · intro j w2 hj
    simp only at hj
    rw [callsOf_append]
    by_cases hij : i = j
    · subst hij
      rw [List.getElem?_set] at hj
      simp only [if_true] at hj
      split at hj
      · cases hj
        have := h.calls i w hi
        simp only [Worker.rest, htodo, hnd] at this ⊢
        simpa using this
      · cases hj
    · rw [List.getElem?_set_ne hij] at hj
      have hne : ¬ (Tid.worker i = Tid.worker j) := by
        intro hx; cases hx; exact hij rfl
      simpa [hne] using h.calls j w2 hj
  · intro j hj
    simp only [List.length_set] at hj
    rw [callsOf_append]
    have hlt : i < s.workers.length := by
      rw [hl, ← hlen]; simp
    have hne : ¬ (Tid.worker i = Tid.worker j) := by
      intro hx; cases hx; omega
    simpa [hne] using h.fresh j hj
  · intro w2 hw2 hd
    simp only [hset, List.mem_append, List.mem_cons] at hw2
    rcases hw2 with hw2 | hw2 | hw2
    · exact h.doneLast w2 (by rw [hl]; simp [hw2]) hd
    · subst hw2; exact htodo
    · exact h.doneLast w2 (by rw [hl]; simp [hw2]) hd
  · have := h.counterEq
    simp only [hset] at this ⊢
    rw [hl] at this
    simp [List.countP_append, List.countP_cons, hnd] at this ⊢
    omega
  · exact h.waiterStarted
  · exact h.pendingNil
  · intro hx
    have := h.wokenZero hx
    simp only at this ⊢
    omega
  · exact h.closedIff
  · intro hx; exact absurd hx hpr
  · have hp := h.perm
    rw [List.perm_iff_count] at hp ⊢
    intro a
    have := hp a
    simp only [hset, List.length_append, List.length_cons, mainCalls, waiterCalls] at this ⊢
    rw [hl] at this
    simp only [List.map_append, List.flatten_append,
      List.count_append, List.map_cons, List.map_nil, List.count_cons, List.flatten_cons,
      List.append_nil, List.count_nil, Worker.rest, htodo, hnd, List.length_append,
      List.length_cons, List.nil_append, Bool.false_eq_true, if_false, if_true, ite_true, ite_false] at this ⊢
    omega

theorem inv_step (env : Env) (fl : Flags) (files : List FileInfo) (s s' : State) (t : Tid)
    (h : Inv env fl files s) (hstep : step env fl s t = some s') : Inv env fl files s' := by
  cases step_sound env fl s s' t hstep with
  | spawn file rest hpc hpend hel => exact inv_spawn env fl files s file rest hpc hpend hel h
  | skip file rest hpc hpend hel => exact inv_skip env fl files s file rest hpend hel h
  | loopEnd hpc hpend => exact inv_loopEnd env fl files s hpc hpend h
  | recv hpc hcl => exact inv_recv env fl files s hpc hcl h
  | wake hpc hw hc => exact inv_wake env fl files s hw hc h
  | close hpc hw => exact inv_close env fl files s hpc hw h
  | call i w e rest hpc hw htodo => exact inv_call env fl files s i w e rest hpc hw htodo h
  | done i w hpc hw htodo hdone => exact inv_done env fl files s i w hpc hw htodo hdone h

theorem inv_exec (env : Env) (fl : Flags) (files : List FileInfo) (sched : List Tid)
    (s s' : State) (h : Inv env fl files s) (hx : exec env fl sched s = some s') :
    Inv env fl files s' := by
  induction sched generalizing s with
  | nil => simp [exec] at hx; subst hx; exact h
  | cons t ts ih =>
    simp only [exec] at hx
    split at hx
    · cases hx
    · rename_i s1 hs1
      exact ih s1 (inv_step env fl files s s1 t h hs1) hx

theorem inv_reachable (env : Env) (fl : Flags) (files : List FileInfo) (s : State)
    (hd : ReachesDispatch env fl files) (hr : Reachable env fl s) : Inv env fl files s := by
  obtain ⟨sched, hx⟩ := hr
  exact inv_exec env fl files sched _ s (inv_init env fl files hd) hx

/-! ## Termination and progress -/

theorem fuel_step (env : Env) (fl : Flags) (files : List FileInfo) (s s' : State) (t : Tid)
    (h : Inv env fl files s) (hstep : step env fl s t = some s') : fuel env fl s = fuel env fl s' + 1 := by
  cases step_sound env fl s s' t hstep with
  | spawn file rest hpc hpend hel =>
    simp [fuel, hpc, hpend, hel, Worker.rest, workerProg, List.sum_append]
    omega
  | skip file rest hpc hpend hel =>
    simp [fuel, hpc, hpend, hel]
    omega
  | loopEnd hpc hpend =>
    have hw : s.waiter = .notStarted := h.waiterStarted.mp hpc
    simp [fuel, hpc, hpend, hw]
  | recv hpc hcl =>
    simp [fuel, hpc]
    omega
  | wake hpc hw hc =>
    simp [fuel, hw]
  | close hpc hw =>
    simp [fuel, hw]
  | call i w e rest hpc hw htodo =>
    obtain ⟨l1, l2, hl, hlen⟩ := split_of_getElem? s.workers i w hw
    have hset : s.workers.set i { w with todo := rest } = l1 ++ { w with todo := rest } :: l2 := by
      rw [hl, ← hlen]; exact set_split l1 l2 w _
    simp only [fuel, hset]
    rw [hl]
    simp [Worker.rest, htodo, List.sum_append]
    omega
  | done i w hpc hw htodo hdone =>
    obtain ⟨l1, l2, hl, hlen⟩ := split_of_getElem? s.workers i w hw
    have hset : s.workers.set i { w with done := true } = l1 ++ { w with done := true } :: l2 := by
      rw [hl, ← hlen]; exact set_split l1 l2 w _
    simp only [fuel, hset]
    rw [hl]
    simp [Worker.rest, htodo, hdone, List.sum_append]
    omega

theorem fuel_exec (env : Env) (fl : Flags) (files : List FileInfo) (sched : List Tid)
    (s s' : State) (h : Inv env fl files s) (hx : exec env fl sched s = some s') :
    fuel env fl s = fuel env fl s' + sched.length := by
  induction sched generalizing s with
  | nil => simp [exec] at hx; subst hx; simp
  | cons t ts ih =>
    simp only [exec] at hx
    split at hx
    · cases hx
    · rename_i s1 hs1
      have h1 := fuel_step env fl files s s1 t h hs1
      have h2 := ih s1 (inv_step env fl files s s1 t h hs1) hx
      simp only [List.length_cons]
      omega

theorem all_done_of_counter_zero (env : Env) (fl : Flags) (files : List FileInfo) (s : State)
    (h : Inv env fl files s) (hc : s.counter = 0) :
    ∀ w ∈ s.workers, w.done = true ∧ w.todo = [] := by
  intro w hw
  have h0 : s.workers.countP (fun w => !w.done) = 0 := by rw [← h.counterEq]; exact hc
  rw [List.countP_eq_zero] at h0
  have hd : w.done = true := by simpa using h0 w hw
  exact ⟨hd, h.doneLast w hw hd⟩

theorem progress (env : Env) (fl : Flags) (files : List FileInfo) (s : State)
    (h : Inv env fl files s) (hpc : s.pc ≠ .returned) :
    ∃ t s', step env fl s t = some s' := by
  cases hp : s.pc with
  | returned => exact absurd hp hpc
  | loop =>
    cases hpend : s.pending with
    | nil => exact ⟨.main, _, step_complete env fl s _ .main (Step.loopEnd s hp hpend)⟩
    | cons file rest =>
      cases hel : eligible env file with
      | true => exact ⟨.main, _, step_complete env fl s _ .main (Step.spawn s file rest hp hpend hel)⟩
      | false => exact ⟨.main, _, step_complete env fl s _ .main (Step.skip s file rest hp hpend hel)⟩
  | recv =>
    cases hw : s.waiter with
    | notStarted =>
      have := h.waiterStarted.mpr hw
      rw [hp] at this; cases this
    | woken => exact ⟨.waiter, _, step_complete env fl s _ .waiter (Step.close s hpc hw)⟩
    | finished =>
      exact ⟨.main, _, step_complete env fl s _ .main (Step.recv s hp (h.closedIff.mpr hw))⟩
    | waiting =>
      by_cases hc : s.counter = 0
      · exact ⟨.waiter, _, step_complete env fl s _ .waiter (Step.wake s hpc hw hc)⟩
      · have hpos : 0 < s.workers.countP (fun w => !w.done) := by
          rw [← h.counterEq]; omega
        rw [List.countP_pos_iff] at hpos
        obtain ⟨w, hmem, hnd⟩ := hpos
        have hnd2 : w.done = false := by simpa using hnd
        obtain ⟨i, hi⟩ := List.mem_iff_getElem?.mp hmem
        cases htodo : w.todo with
        | nil =>
          exact ⟨.worker i, _, step_complete env fl s _ (.worker i) (Step.done s i w hpc hi htodo hnd2)⟩
        | cons e rest =>
          exact ⟨.worker i, _, step_complete env fl s _ (.worker i) (Step.call s i w e rest hpc hi htodo)⟩

theorem fuel_returned (env : Env) (fl : Flags) (files : List FileInfo) (s : State)
    (h : Inv env fl files s) (hpc : s.pc = .returned) : fuel env fl s = 0 := by
  have hcl := (h.returnedLast hpc).1
  have hw := h.closedIff.mp hcl
  have hc := h.wokenZero (Or.inr hw)
  have hall := all_done_of_counter_zero env fl files s h hc
  have hpend := h.pendingNil (by rw [hpc]; simp)
  have hsum : (s.workers.map (fun w => w.rest.length)).sum = 0 := by
    apply List.sum_eq_zero
    intro x hx
    simp only [List.mem_map] at hx
    obtain ⟨w, hwm, rfl⟩ := hx
    obtain ⟨hd, ht⟩ := hall w hwm
    simp [Worker.rest, hd, ht]
  simp [fuel, hpc, hw, hpend, hsum]

theorem exists_complete_run (env : Env) (fl : Flags) (files : List FileInfo) (s : State)
    (h : Inv env fl files s) :
    ∃ sched s', exec env fl sched s = some s' ∧ s'.pc = .returned := by
  generalize hn : fuel env fl s = n
  induction n generalizing s with
  | zero =>
    by_cases hpc : s.pc = .returned
    · exact ⟨[], s, rfl, hpc⟩
    · obtain ⟨t, s1, hs1⟩ := progress env fl files s h hpc
      have := fuel_step env fl files s s1 t h hs1
      omega
  | succ n ih =>
    by_cases hpc : s.pc = .returned
    · exact ⟨[], s, rfl, hpc⟩
    · obtain ⟨t, s1, hs1⟩ := progress env fl files s h hpc
      have hf := fuel_step env fl files s s1 t h hs1
      obtain ⟨sched, s2, hx, hr⟩ := ih s1 (inv_step env fl files s s1 t h hs1) (by omega)
      exact ⟨t :: sched, s2, by simp [exec, hs1, hx], hr⟩

/-! ## Machine integers -/

theorem uintOfInt_intOfUint (bits u : Nat) (hu : u < 2 ^ bits) :
    uintOfInt bits (intOfUint bits u) = u := by
  have hmod : u % 2 ^ bits = u := Nat.mod_eq_of_lt hu
  have hpos : (0 : Int) < ((2 ^ bits : Nat) : Int) := by
    have : 0 < 2 ^ bits := Nat.pos_of_ne_zero (by positivity)
    exact_mod_cast this
  unfold uintOfInt intOfUint
  rw [hmod]
  split
  · rw [Int.emod_eq_of_lt (by omega) (by exact_mod_cast hu)]
    simp
  · rw [Int.sub_emod, Int.emod_self, sub_zero, Int.emod_emod,
      Int.emod_eq_of_lt (by omega) (by exact_mod_cast hu)]
    simp

/-! ## Suffixes and extensions -/

theorem hasSuffix_iff (s suffix : Str) :
    HasSuffix s suffix = true ↔ ∃ t, s = t ++ suffix := by
  unfold HasSuffix
  constructor
  · intro h
    simp only [Bool.and_eq_true, decide_eq_true_eq, beq_iff_eq] at h
    refine ⟨s.take (s.length - suffix.length), ?_⟩
    conv_lhs => rw [← List.take_append_drop (s.length - suffix.length) s]
    rw [h.2]
  · rintro ⟨t, rfl⟩
    simp

theorem extScan_length (r acc : List Char) :
    extScan r acc = [] ∨ acc.length + 1 ≤ (extScan r acc).length := by
  induction r generalizing acc with
  | nil => left; rfl
  | cons c rest ih =>
    unfold extScan
    split
    · left; rfl
    · split
      · right; simp
      · rcases ih (c :: acc) with h | h
        · left; exact h
        · right; simp at h ⊢; omega

theorem ext_eq_iff (s : Str) (c1 c2 c3 : Char)
    (h1 : c1 ≠ '/' ∧ c1 ≠ '.') (h2 : c2 ≠ '/' ∧ c2 ≠ '.') (h3 : c3 ≠ '/' ∧ c3 ≠ '.') :
    Ext s = ['.', c1, c2, c3] ↔ ∃ t, s = t ++ ['.', c1, c2, c3] := by
  constructor
  · intro h
    unfold Ext at h
    have hrev : ∃ r, s.reverse = c3 :: c2 :: c1 :: '.' :: r := by
      rcases hs : s.reverse with _ | ⟨a, _ | ⟨b, _ | ⟨c, _ | ⟨d, r⟩⟩⟩⟩
      · rw [hs] at h; simp [extScan] at h
      · rw [hs] at h; simp only [extScan] at h
        split at h
        · simp at h
        · split at h <;> simp at h
      · rw [hs] at h; simp only [extScan] at h
        repeat' split at h
        all_goals simp at h
      · rw [hs] at h; simp only [extScan] at h
        repeat' split at h
        all_goals simp at h
      · rw [hs] at h; simp only [extScan] at h
        split at h
        · simp at h
        · split at h
          · simp at h
          · split at h
            · simp at h
            · split at h
              · simp at h
              · split at h
                · simp at h
                · split at h
                  · simp at h
                  · split at h
                    · simp at h
                    · split at h
                      · rename_i hd
                        simp at h
                        obtain ⟨hc, hb, ha⟩ := h
                        subst hd hc hb ha
                        exact ⟨r, rfl⟩
                      · rcases extScan_length r [d, c, b, a] with h0 | h0
                        · rw [h0] at h; simp at h
                        · rw [h] at h0; simp at h0
    obtain ⟨r, hr⟩ := hrev
    refine ⟨r.reverse, ?_⟩
    have := congrArg List.reverse hr
    simpa using this
  · rintro ⟨t, rfl⟩
    simp [Ext, extScan, h1.1, h1.2, h2.1, h2.2, h3.1, h3.2]

/-! ## What `resizeImage` and a worker do -/

theorem linesOf_resizeImage (env : Env) (inP outP : Str) (w h : Int) :
    linesOf (resizeImage env inP outP w h).1 = [] := by
  unfold resizeImage
  repeat' split
  all_goals simp [linesOf]

theorem count_sync_resizeImage (env : Env) (inP outP : Str) (w h : Int) (e : Event)
    (he : e = .wgAdd ∨ e = .wgDone ∨ e = .wgWait ∨ e = .closeDone ∨ e = .recvDone) :
    e ∉ (resizeImage env inP outP w h).1 := by
  unfold resizeImage
  rcases he with rfl | rfl | rfl | rfl | rfl
  all_goals
    repeat' split
    all_goals simp

theorem filesCreated_resizeImage (env : Env) (inP outP : Str) (w h : Int) :
    filesCreated (resizeImage env inP outP w h).1 =
      if (env.osOpen inP).isNone && decodes env inP && (env.osCreate outP).isNone
      then [outP] else [] := by
  unfold resizeImage decodes
  repeat' split
  all_goals simp_all [filesCreated]

theorem resizeArgs_resizeImage (env : Env) (inP outP : Str) (w h : Int) :
    resizeArgs (resizeImage env inP outP w h).1 =
      if (env.osOpen inP).isNone && decodes env inP
      then [(uintOfInt env.intSize w, uintOfInt env.intSize h)] else [] := by
  unfold resizeImage decodes
  repeat' split
  all_goals simp_all [resizeArgs]

theorem encodersUsed_resizeImage (env : Env) (inP outP : Str) (w h : Int) :
    encodersUsed (resizeImage env inP outP w h).1 =
      if (env.osOpen inP).isNone && decodes env inP && (env.osCreate outP).isNone
      then [if HasSuffix (ToLower env.unicodeLower outP) pngExtensions then Format.png
            else Format.jpeg]
      else [] := by
  unfold resizeImage decodes
  repeat' split
  all_goals simp_all [encodersUsed]

theorem imagesEncoded_resizeImage (env : Env) (inP outP : Str) (w h : Int) (p : Str)
    (img : Image) (hmem : (p, img) ∈ imagesEncoded (resizeImage env inP outP w h).1) :
    p = outP ∧ ∃ src, env.decode inP = .ok src ∧
      img = env.resize (uintOfInt env.intSize w) (uintOfInt env.intSize h) src := by
  unfold resizeImage at hmem
  repeat' split at hmem
  all_goals simp_all [imagesEncoded]

theorem head_resizeImage (env : Env) (inP outP : Str) (w h : Int) :
    (resizeImage env inP outP w h).1.head? = some (.osOpen inP (env.osOpen inP)) := by
  unfold resizeImage
  repeat' split
  all_goals simp_all

theorem error_resizeImage_of_not_opened (env : Env) (inP outP : Str) (w h : Int) (err : Str)
    (ho : env.osOpen inP = some err) :
    (resizeImage env inP outP w h).2 = some err := by
  unfold resizeImage
  simp [ho]

theorem error_resizeImage_of_not_decoded (env : Env) (inP outP : Str) (w h : Int) (err : Str)
    (ho : env.osOpen inP = none) (hdec : env.decode inP = .error err) :
    (resizeImage env inP outP w h).2 = some err := by
  unfold resizeImage
  simp [ho, hdec]

theorem linesOf_workerBody (env : Env) (fl : Flags) (file : FileInfo) :
    linesOf (workerBody env fl file) = [statusLine file.name (jobResult env fl file).2] := by
  unfold workerBody
  have := linesOf_resizeImage env (inputPath env fl file) (outputPath env fl file)
    (intOfUint env.intSize fl.targetWidth) (intOfUint env.intSize fl.targetHeight)
  simp only [linesOf, jobResult, List.filterMap_append] at this ⊢
  rw [this]
  simp

theorem linesOf_workerProg (env : Env) (fl : Flags) (file : FileInfo) :
    linesOf (workerProg env fl file) = [statusLine file.name (jobResult env fl file).2] := by
  have := linesOf_workerBody env fl file
  simp only [workerProg, linesOf, List.filterMap_append] at this ⊢
  rw [this]
  simp

theorem filesCreated_workerProg (env : Env) (fl : Flags) (file : FileInfo) :
    filesCreated (workerProg env fl file) =
      if createsOutput env fl file then [outputPath env fl file] else [] := by
  have := filesCreated_resizeImage env (inputPath env fl file) (outputPath env fl file)
    (intOfUint env.intSize fl.targetWidth) (intOfUint env.intSize fl.targetHeight)
  simp only [workerProg, workerBody, jobResult, filesCreated, List.filterMap_append,
    createsOutput] at this ⊢
  rw [this]
  simp

theorem count_wgDone_workerProg (env : Env) (fl : Flags) (file : FileInfo) :
    (workerProg env fl file).count .wgDone = 1 := by
  have := count_sync_resizeImage env (inputPath env fl file) (outputPath env fl file)
    (intOfUint env.intSize fl.targetWidth) (intOfUint env.intSize fl.targetHeight) .wgDone
    (by simp)
  simp only [workerProg, workerBody, jobResult, List.count_append]
  rw [List.count_eq_zero_of_not_mem this]
  simp

theorem count_closeDone_workerProg (env : Env) (fl : Flags) (file : FileInfo) :
    (workerProg env fl file).count .closeDone = 0 := by
  have := count_sync_resizeImage env (inputPath env fl file) (outputPath env fl file)
    (intOfUint env.intSize fl.targetWidth) (intOfUint env.intSize fl.targetHeight) .closeDone
    (by simp)
  simp only [workerProg, workerBody, jobResult, List.count_append]
  rw [List.count_eq_zero_of_not_mem this]
  simp

/-! ## The state of a run once the channel is closed -/

theorem filterMap_flatten_map {α β γ : Type} (f : β → Option γ) (g : α → List β)
    (l : List α) :
    ((l.map g).flatten).filterMap f = (l.map (fun x => (g x).filterMap f)).flatten := by
  induction l with
  | nil => rfl
  | cons a l ih => simp [List.filterMap_append, ih]

theorem count_flatten_map_const {α β : Type} [DecidableEq β] (g : α → List β) (b : β)
    (n : Nat) (l : List α) (h : ∀ a ∈ l, (g a).count b = n) :
    ((l.map g).flatten).count b = n * l.length := by
  induction l with
  | nil => simp
  | cons a l ih =>
    simp only [List.map_cons, List.flatten_cons, List.count_append, List.length_cons]
    rw [h a (by simp), ih (fun x hx => h x (by simp [hx]))]
    ring

theorem flatten_singletons {α β : Type} (g : α → β) (l : List α) :
    (l.map (fun x => [g x])).flatten = l.map g := by
  induction l with
  | nil => rfl
  | cons a l ih => simp [ih]

theorem rest_nil_of_closed (env : Env) (fl : Flags) (files : List FileInfo) (s : State)
    (h : Inv env fl files s) (hcl : s.doneClosed = true) :
    ∀ w ∈ s.workers, w.rest = [] := by
  intro w hw
  have hc := h.wokenZero (Or.inr (h.closedIff.mp hcl))
  obtain ⟨hd, ht⟩ := all_done_of_counter_zero env fl files s h hc w hw
  simp [Worker.rest, hd, ht]

theorem rests_nil_of_closed (env : Env) (fl : Flags) (files : List FileInfo) (s : State)
    (h : Inv env fl files s) (hcl : s.doneClosed = true) :
    (s.workers.map Worker.rest).flatten = [] := by
  have := rest_nil_of_closed env fl files s h hcl
  rw [List.flatten_eq_nil_iff]
  intro l hl
  simp only [List.mem_map] at hl
  obtain ⟨w, hw, rfl⟩ := hl
  exact this w hw

theorem dispatched_of_not_loop (env : Env) (fl : Flags) (files : List FileInfo) (s : State)
    (h : Inv env fl files s) (hpc : s.pc ≠ .loop) : dispatched s = jobs env files := by
  have := h.jobsEq
  rw [h.pendingNil hpc] at this
  simpa using this

theorem calls_of_closed (env : Env) (fl : Flags) (files : List FileInfo) (s : State)
    (h : Inv env fl files s) (hcl : s.doneClosed = true) (i : Nat) (w : Worker)
    (hi : s.workers[i]? = some w) :
    callsOf (.worker i) s.trace = workerProg env fl w.file := by
  have hmem : w ∈ s.workers := List.mem_iff_getElem?.mpr ⟨i, hi⟩
  have := h.calls i w hi
  rw [rest_nil_of_closed env fl files s h hcl w hmem] at this
  simpa using this

theorem perm_of_closed (env : Env) (fl : Flags) (files : List FileInfo) (s : State)
    (h : Inv env fl files s) (hcl : s.doneClosed = true) :
    (callsIn s.trace).Perm
      (mainCalls fl s ++ [.wgWait, .closeDone] ++
        ((dispatched s).map (workerProg env fl)).flatten) := by
  have hp := h.perm
  rw [rests_nil_of_closed env fl files s h hcl] at hp
  have hw := h.closedIff.mp hcl
  simpa [callsIn, waiterCalls, hw, dispatched, List.map_map, Function.comp_def] using hp

theorem closed_not_loop (env : Env) (fl : Flags) (files : List FileInfo) (s : State)
    (h : Inv env fl files s) (hcl : s.doneClosed = true) : s.pc ≠ .loop := by
  intro hx
  have h1 := h.waiterStarted.mp hx
  have h2 := h.closedIff.mp hcl
  rw [h1] at h2; cases h2

theorem linesOf_mainCalls (fl : Flags) (s : State) : linesOf (mainCalls fl s) = [] := by
  unfold mainCalls linesOf
  simp only [List.filterMap_append]
  have : List.filterMap (fun e => match e with | Event.stdout text => some text | _ => none)
      (List.replicate s.workers.length Event.wgAdd) = [] := by
    induction s.workers.length with
    | zero => rfl
    | succ n ih => simp [List.replicate_succ, ih]
  rw [this]
  split <;> simp

theorem filesCreated_mainCalls (fl : Flags) (s : State) :
    filesCreated (mainCalls fl s) = [] := by
  unfold mainCalls filesCreated
  simp only [List.filterMap_append]
  have : List.filterMap (fun e => match e with | Event.osCreate p none => some p | _ => none)
      (List.replicate s.workers.length Event.wgAdd) = [] := by
    induction s.workers.length with
    | zero => rfl
    | succ n ih => simp [List.replicate_succ, ih]
  rw [this]
  split <;> simp

theorem linesOf_perm_of_closed (env : Env) (fl : Flags) (files : List FileInfo) (s : State)
    (h : Inv env fl files s) (hcl : s.doneClosed = true) :
    (linesOf (callsIn s.trace)).Perm
      ((jobs env files).map (fun f => statusLine f.name (jobResult env fl f).2)) := by
  have hp := (perm_of_closed env fl files s h hcl).filterMap
    (fun e => match e with | Event.stdout text => some text | _ => none)
  have hm := linesOf_mainCalls fl s
  unfold linesOf at hm ⊢
  rw [List.filterMap_append, List.filterMap_append, hm, filterMap_flatten_map] at hp
  have hl : ∀ f, List.filterMap
      (fun e => match e with | Event.stdout text => some text | _ => none)
      (workerProg env fl f) = [statusLine f.name (jobResult env fl f).2] :=
    fun f => linesOf_workerProg env fl f
  simp only [hl] at hp
  rw [flatten_singletons, dispatched_of_not_loop env fl files s h
    (closed_not_loop env fl files s h hcl)] at hp
  simpa using hp

theorem filesCreated_perm_of_closed (env : Env) (fl : Flags) (files : List FileInfo)
    (s : State) (h : Inv env fl files s) (hcl : s.doneClosed = true) :
    (filesCreated (callsIn s.trace)).Perm
      (((jobs env files).filter (createsOutput env fl)).map (outputPath env fl)) := by
  have hp := (perm_of_closed env fl files s h hcl).filterMap
    (fun e => match e with | Event.osCreate p none => some p | _ => none)
  have hm := filesCreated_mainCalls fl s
  unfold filesCreated at hm ⊢
  rw [List.filterMap_append, List.filterMap_append, hm, filterMap_flatten_map] at hp
  have hl : ∀ f, List.filterMap
      (fun e => match e with | Event.osCreate p none => some p | _ => none)
      (workerProg env fl f) = if createsOutput env fl f then [outputPath env fl f] else [] :=
    fun f => filesCreated_workerProg env fl f
  simp only [hl] at hp
  rw [dispatched_of_not_loop env fl files s h (closed_not_loop env fl files s h hcl)] at hp
  have hfl : ∀ l : List FileInfo,
      (l.map (fun f => if createsOutput env fl f then [outputPath env fl f] else [])).flatten
        = (l.filter (createsOutput env fl)).map (outputPath env fl) := by
    intro l
    induction l with
    | nil => rfl
    | cons a l ih =>
      by_cases ha : createsOutput env fl a = true <;> simp [ha, ih, List.filter_cons]
  rw [hfl] at hp
  simpa using hp

theorem count_wgDone_of_closed (env : Env) (fl : Flags) (files : List FileInfo) (s : State)
    (h : Inv env fl files s) (hcl : s.doneClosed = true) :
    (callsIn s.trace).count .wgDone = (jobs env files).length := by
  have hp := (perm_of_closed env fl files s h hcl).count_eq .wgDone
  rw [hp]
  simp only [List.count_append, mainCalls]
  rw [count_flatten_map_const (workerProg env fl) .wgDone 1 (dispatched s)
    (fun f _ => count_wgDone_workerProg env fl f),
    dispatched_of_not_loop env fl files s h (closed_not_loop env fl files s h hcl)]
  have : List.count Event.wgDone (List.replicate s.workers.length Event.wgAdd) = 0 := by
    rw [List.count_replicate]; simp
  rw [this]
  split <;> simp

theorem count_closeDone_rest (env : Env) (fl : Flags) (files : List FileInfo) (s : State)
    (h : Inv env fl files s) (w : Worker) (hw : w ∈ s.workers) :
    w.rest.count .closeDone = 0 := by
  obtain ⟨i, hi⟩ := List.mem_iff_getElem?.mp hw
  have h1 := congrArg (List.count Event.closeDone) (h.calls i w hi)
  rw [List.count_append, count_closeDone_workerProg] at h1
  omega

theorem count_closeDone (env : Env) (fl : Flags) (files : List FileInfo) (s : State)
    (h : Inv env fl files s) :
    (callsIn s.trace).count .closeDone = if s.doneClosed then 1 else 0 := by
  have hp := h.perm.count_eq .closeDone
  have hrest : ((s.workers.map Worker.rest).flatten).count .closeDone = 0 := by
    rw [count_flatten_map_const Worker.rest .closeDone 0 s.workers
      (fun w hw => count_closeDone_rest env fl files s h w hw)]
    simp
  have hprog : ((s.workers.map (fun w => workerProg env fl w.file)).flatten).count
      .closeDone = 0 := by
    rw [count_flatten_map_const (fun w => workerProg env fl w.file) .closeDone 0 s.workers
      (fun w _ => count_closeDone_workerProg env fl w.file)]
    simp
  have hmain : (mainCalls fl s).count .closeDone = 0 := by
    unfold mainCalls
    simp only [List.count_append]
    have : List.count Event.closeDone (List.replicate s.workers.length Event.wgAdd) = 0 := by
      rw [List.count_replicate]; simp
    rw [this]
    split <;> simp
  simp only [List.count_append, hrest, hprog, hmain] at hp
  unfold callsIn
  rw [Nat.add_zero, Nat.zero_add, Nat.add_zero] at hp
  rw [hp]
  cases hw : s.waiter with
  | finished => simp [waiterCalls, hw, h.closedIff.mpr hw]
  | notStarted =>
    have : s.doneClosed = false := by
      cases hd : s.doneClosed with
      | false => rfl
      | true => have := h.closedIff.mp hd; rw [hw] at this; cases this
    simp [waiterCalls, hw, this]
  | waiting =>
    have : s.doneClosed = false := by
      cases hd : s.doneClosed with
      | false => rfl
      | true => have := h.closedIff.mp hd; rw [hw] at this; cases this
    simp [waiterCalls, hw, this]
  | woken =>
    have : s.doneClosed = false := by
      cases hd : s.doneClosed with
      | false => rfl
      | true => have := h.closedIff.mp hd; rw [hw] at this; cases this
    simp [waiterCalls, hw, this]

/-! ## Runs that stop before the loop -/

theorem step_none_of_returned (env : Env) (fl : Flags) (s : State) (t : Tid)
    (hpc : s.pc = .returned) : step env fl s t = none := by
  cases t <;> simp [step, hpc]

theorem exec_of_returned (env : Env) (fl : Flags) (sched : List Tid) (s s' : State)
    (hpc : s.pc = .returned) (hx : exec env fl sched s = some s') : s' = s := by
  cases sched with
  | nil => simp [exec] at hx; exact hx.symm
  | cons t ts => simp [exec, step_none_of_returned env fl s t hpc] at hx

theorem reachable_of_returned (env : Env) (fl : Flags) (s : State)
    (hpc : (mainInit env fl).pc = .returned) (hr : Reachable env fl s) :
    s = mainInit env fl := by
  obtain ⟨sched, hx⟩ := hr
  exact exec_of_returned env fl sched _ s hpc hx

/-- C5: when the width or the height is 0 or is not supplied, the run prints the usage
error and the flag defaults and returns: in every state the run can reach, these two are
the only calls made, so the input directory is not read, the output directory is not
created, no file is created, no worker is started, and no goroutine can take a step. -/
theorem zero_dimension_fails_fast (env : Env) (input output : Option Str)
    (width height : Option Nat) (s : State)
    (hz : width = none ∨ width = some 0 ∨ height = none ∨ height = some 0)
    (hr : Reachable env (parseFlags input output width height) s) :
    s.trace = [(.main, .stdout usageError), (.main, .printDefaults)] ∧
      s.pc = .returned ∧ dispatched s = [] ∧ filesCreated (callsIn s.trace) = [] ∧
      (∀ dir err, Event.readDir dir err ∉ callsIn s.trace) ∧
      (∀ dir err, Event.mkdirAll dir err ∉ callsIn s.trace) ∧
      (∀ t, step env (parseFlags input output width height) s t = none) := by
  have hinit : mainInit env (parseFlags input output width height) =
      returnedEarly [.stdout usageError, .printDefaults] := by
    rcases hz with h | h | h | h <;> subst h <;> simp [mainInit, parseFlags]
  have hs := reachable_of_returned env _ s (by rw [hinit]; rfl) hr
  rw [hinit] at hs
  subst hs
  refine ⟨rfl, rfl, rfl, rfl, ?_, ?_, ?_⟩
  · intro dir err; simp [returnedEarly, callsIn]
  · intro dir err; simp [returnedEarly, callsIn]
  · intro t; exact step_none_of_returned env _ _ t rfl

theorem zero_dimension_fails_fast_witness :
    ((some 0 : Option Nat) = none ∨ (some 0 : Option Nat) = some 0 ∨
        (none : Option Nat) = none ∨ (none : Option Nat) = some 0) ∧
      Reachable demoEnv (parseFlags (some "in".toList) (some "out".toList) (some 0) none)
        (mainInit demoEnv (parseFlags (some "in".toList) (some "out".toList) (some 0) none)) ∧
      (mainInit demoEnv
          (parseFlags (some "in".toList) (some "out".toList) (some 0) none)).trace =
        [(.main, .stdout usageError), (.main, .printDefaults)] :=
  ⟨Or.inr (Or.inl rfl), ⟨[], rfl⟩,
    (zero_dimension_fails_fast demoEnv (some "in".toList) (some "out".toList) (some 0) none _
      (Or.inr (Or.inl rfl)) ⟨[], rfl⟩).1⟩

/-- C9: with valid flags, a failure to read the input directory, or to create the output
directory, is printed and ends the run.  In every state the run can reach the calls made
are exactly the directory calls up to the failing one and the error line; in the first
case `os.MkdirAll` is not called; in both no worker is started, no file is created and no
goroutine can take a step. -/
theorem directory_errors_are_fatal (env : Env) (fl : Flags) (s : State)
    (hv : fl.inputDir ≠ [] ∧ fl.outputDir ≠ [] ∧ fl.targetWidth ≠ 0 ∧ fl.targetHeight ≠ 0)
    (hr : Reachable env fl s) :
    (∀ err, env.readDir fl.inputDir = .error err →
      s.trace = [(.main, .readDir fl.inputDir (some err)),
        (.main, .stdout ("Error reading input directory: ".toList ++ err ++ "\n".toList))] ∧
      (∀ dir e, Event.mkdirAll dir e ∉ callsIn s.trace) ∧
      s.pc = .returned ∧ dispatched s = [] ∧ filesCreated (callsIn s.trace) = [] ∧
      (∀ t, step env fl s t = none)) ∧
    (∀ files err, env.readDir fl.inputDir = .ok files → env.mkdirAll fl.outputDir = some err →
      s.trace = [(.main, .readDir fl.inputDir none), (.main, .mkdirAll fl.outputDir (some err)),
        (.main, .stdout ("Error creating output directory: ".toList ++ err ++ "\n".toList))] ∧
      s.pc = .returned ∧ dispatched s = [] ∧ filesCreated (callsIn s.trace) = [] ∧
      (∀ t, step env fl s t = none)) := by
  obtain ⟨h1, h2, h3, h4⟩ := hv
  constructor
  · intro err he
    have hinit : mainInit env fl = returnedEarly [.readDir fl.inputDir (some err),
        .stdout ("Error reading input directory: ".toList ++ err ++ "\n".toList)] := by
      simp [mainInit, h1, h2, h3, h4, he]
    have hs := reachable_of_returned env fl s (by rw [hinit]; rfl) hr
    rw [hinit] at hs
    subst hs
    refine ⟨rfl, ?_, rfl, rfl, rfl, ?_⟩
    · intro dir e; simp [returnedEarly, callsIn]
    · intro t; exact step_none_of_returned env _ _ t rfl
  · intro files err he hm
    have hinit : mainInit env fl = returnedEarly [.readDir fl.inputDir none,
        .mkdirAll fl.outputDir (some err),
        .stdout ("Error creating output directory: ".toList ++ err ++ "\n".toList)] := by
      simp [mainInit, h1, h2, h3, h4, he, hm]
    have hs := reachable_of_returned env fl s (by rw [hinit]; rfl) hr
    rw [hinit] at hs
    subst hs
    refine ⟨rfl, rfl, rfl, rfl, ?_⟩
    intro t; exact step_none_of_returned env _ _ t rfl

theorem directory_errors_are_fatal_witness :
    (demoFlagsNoInput.inputDir ≠ [] ∧ demoFlagsNoInput.outputDir ≠ [] ∧
        demoFlagsNoInput.targetWidth ≠ 0 ∧ demoFlagsNoInput.targetHeight ≠ 0) ∧
      demoEnv.readDir demoFlagsNoInput.inputDir = .error "no such file or directory".toList ∧
      (mainInit demoEnv demoFlagsNoInput).trace =
        [(.main, .readDir "nowhere".toList (some "no such file or directory".toList)),
          (.main, .stdout
            "Error reading input directory: no such file or directory\n".toList)] ∧
      demoEnvNoOutput.mkdirAll demoFlags.outputDir = some "permission denied".toList ∧
      (mainInit demoEnvNoOutput demoFlags).trace =
        [(.main, .readDir "in".toList none),
          (.main, .mkdirAll "out".toList (some "permission denied".toList)),
          (.main, .stdout "Error creating output directory: permission denied\n".toList)] :=
  ⟨by decide, rfl,
    ((directory_errors_are_fatal demoEnv demoFlagsNoInput _ (by decide) ⟨[], rfl⟩).1
      "no such file or directory".toList rfl).1,
    rfl,
    ((directory_errors_are_fatal demoEnvNoOutput demoFlags _ (by decide) ⟨[], rfl⟩).2
      demoFiles "permission denied".toList rfl rfl).1⟩

/-! ## Which entries are dispatched -/

theorem eligible_iff_ext (env : Env) (file : FileInfo) :
    eligible env file = true ↔
      file.isDir = false ∧
        (Ext (ToLower env.unicodeLower file.name) = ".jpg".toList ∨
          Ext (ToLower env.unicodeLower file.name) = ".png".toList) := by
  have hj := ext_eq_iff (ToLower env.unicodeLower file.name) 'j' 'p' 'g'
    (by decide) (by decide) (by decide)
  have hp := ext_eq_iff (ToLower env.unicodeLower file.name) 'p' 'n' 'g'
    (by decide) (by decide) (by decide)
  have hj2 := hasSuffix_iff (ToLower env.unicodeLower file.name) jpgExtensions
  have hp2 := hasSuffix_iff (ToLower env.unicodeLower file.name) pngExtensions
  have e1 : ".jpg".toList = ['.', 'j', 'p', 'g'] := rfl
  have e2 : ".png".toList = ['.', 'p', 'n', 'g'] := rfl
  have e3 : jpgExtensions = ['.', 'j', 'p', 'g'] := rfl
  have e4 : pngExtensions = ['.', 'p', 'n', 'g'] := rfl
  rw [e1, e2, hj, hp]
  rw [e3] at hj2
  rw [e4] at hp2
  unfold eligible
  simp only [Bool.and_eq_true, Bool.not_eq_true', Bool.or_eq_true]
  rw [e3, e4, hj2, hp2]

/-- C1 (amended): once the loop has visited the whole listing, the entries for which a
worker was started are exactly the entries of the listing that pass the guard of line 56,
in order; an entry is among them if and only if it is in the listing, is not a directory,
and the extension of its lower-cased name is `.jpg` or `.png`.  So `photo.jpg`,
`PHOTO.JPG` and `B.PNG` are dispatched, while `photo.jpeg`, `PHOTO.JPEG`, `c.txt` and a
directory named `x.jpg` are not. -/
theorem dispatched_iff_jpg_or_png (env : Env) (fl : Flags) (files : List FileInfo)
    (sched : List Tid) (s : State) (hd : ReachesDispatch env fl files)
    (hx : exec env fl sched (mainInit env fl) = some s) (hpc : s.pc ≠ .loop) :
    dispatched s = files.filter (eligible env) ∧
      (∀ file, file ∈ dispatched s ↔
        file ∈ files ∧ file.isDir = false ∧
          (Ext (ToLower env.unicodeLower file.name) = ".jpg".toList ∨
            Ext (ToLower env.unicodeLower file.name) = ".png".toList)) ∧
      eligible env ⟨"photo.jpg".toList, false⟩ = true ∧
      eligible env ⟨"PHOTO.JPG".toList, false⟩ = true ∧
      eligible env ⟨"B.PNG".toList, false⟩ = true ∧
      eligible env ⟨"photo.jpeg".toList, false⟩ = false ∧
      eligible env ⟨"PHOTO.JPEG".toList, false⟩ = false ∧
      eligible env ⟨"c.txt".toList, false⟩ = false ∧
      eligible env ⟨"x.jpg".toList, true⟩ = false := by
  have hinv := inv_reachable env fl files s hd ⟨sched, hx⟩
  have hdis := dispatched_of_not_loop env fl files s hinv hpc
  refine ⟨hdis, ?_, rfl, rfl, rfl, rfl, rfl, rfl, rfl⟩
  intro file
  rw [hdis, jobs, List.mem_filter, eligible_iff_ext]

theorem dispatched_iff_jpg_or_png_witness :
    ReachesDispatch demoEnv demoFlags demoFiles ∧
      exec demoEnv demoFlags demoSched (mainInit demoEnv demoFlags) = some demoFinal ∧
      demoFinal.pc ≠ .loop ∧
      dispatched demoFinal = demoFiles.filter (eligible demoEnv) ∧
      dispatched demoFinal = [⟨"a.jpg".toList, false⟩, ⟨"B.PNG".toList, false⟩] :=
  ⟨⟨by decide, by decide, by decide, by decide, rfl, rfl⟩, by decide, by decide,
    (dispatched_iff_jpg_or_png demoEnv demoFlags demoFiles demoSched demoFinal
      ⟨by decide, by decide, by decide, by decide, rfl, rfl⟩ (by decide) (by decide)).1,
    by decide⟩

/-- C1 as stated fails: `photo.jpeg` and `PHOTO.JPEG` are regular files of the listing with
the extension `.jpeg`, and in a complete run no worker is started for either. -/
theorem jpeg_entries_not_dispatched :
    ReachesDispatch demoEnv demoFlags demoFiles ∧
      exec demoEnv demoFlags demoSched (mainInit demoEnv demoFlags) = some demoFinal ∧
      demoFinal.pc = .returned ∧
      (⟨"photo.jpeg".toList, false⟩ : FileInfo) ∈ demoFiles ∧
      (⟨"PHOTO.JPEG".toList, false⟩ : FileInfo) ∈ demoFiles ∧
      specEligible demoEnv ⟨"photo.jpeg".toList, false⟩ = true ∧
      specEligible demoEnv ⟨"PHOTO.JPEG".toList, false⟩ = true ∧
      (⟨"photo.jpeg".toList, false⟩ : FileInfo) ∉ dispatched demoFinal ∧
      (⟨"PHOTO.JPEG".toList, false⟩ : FileInfo) ∉ dispatched demoFinal :=
  ⟨⟨by decide, by decide, by decide, by decide, rfl, rfl⟩, by decide, by decide, by decide,
    by decide, by decide, by decide, by decide, by decide⟩

/-! ## The encoder and the dimensions -/

/-- C4: the encoder `resizeImage` runs is decided by the output path alone.  When the
input opens and decodes and the output file is created, exactly one encoder runs: the PNG
encoder if the extension of the lower-cased output path is `.png`, which is the test of
line 106, and the JPEG encoder with default options otherwise; when one of the three
fails, no encoder runs.  The choice mentions neither the input path nor the decoded
image. -/
theorem encoder_chosen_by_output_extension (env : Env) (inP outP : Str) (w h : Int) :
    encodersUsed (resizeImage env inP outP w h).1 =
        (if (env.osOpen inP).isNone && decodes env inP && (env.osCreate outP).isNone
         then [if Ext (ToLower env.unicodeLower outP) = ".png".toList then Format.png
               else Format.jpeg]
         else []) ∧
      (HasSuffix (ToLower env.unicodeLower outP) pngExtensions = true ↔
        Ext (ToLower env.unicodeLower outP) = ".png".toList) ∧
      (∀ p img err, Event.pngEncode p img err ∈ (resizeImage env inP outP w h).1 →
        p = outP ∧ Ext (ToLower env.unicodeLower outP) = ".png".toList) ∧
      (∀ p img err, Event.jpegEncode p img err ∈ (resizeImage env inP outP w h).1 →
        p = outP ∧ Ext (ToLower env.unicodeLower outP) ≠ ".png".toList) := by
  have hiff : HasSuffix (ToLower env.unicodeLower outP) pngExtensions = true ↔
      Ext (ToLower env.unicodeLower outP) = ".png".toList := by
    have hp := ext_eq_iff (ToLower env.unicodeLower outP) 'p' 'n' 'g'
      (by decide) (by decide) (by decide)
    have hp2 := hasSuffix_iff (ToLower env.unicodeLower outP) pngExtensions
    have e2 : ".png".toList = ['.', 'p', 'n', 'g'] := rfl
    have e4 : pngExtensions = ['.', 'p', 'n', 'g'] := rfl
    rw [e2, hp]
    rw [e4] at hp2 ⊢
    exact hp2
  refine ⟨?_, hiff, ?_, ?_⟩
  · rw [encodersUsed_resizeImage]
    by_cases hs : HasSuffix (ToLower env.unicodeLower outP) pngExtensions = true
    · rw [if_pos (hiff.mp hs)]; simp [hs]
    · have hne : ¬ Ext (ToLower env.unicodeLower outP) = ".png".toList :=
        fun hx => hs (hiff.mpr hx)
      rw [if_neg hne]; simp [hs]
  · intro p img err hmem
    unfold resizeImage at hmem
    repeat' split at hmem
    all_goals simp_all
  · intro p img err hmem
    unfold resizeImage at hmem
    repeat' split at hmem
    all_goals simp_all

theorem mem_resizeArgs (evs : List Event) (w h : Nat) :
    Event.resize w h ∈ evs → (w, h) ∈ resizeArgs evs := by
  intro hm
  unfold resizeArgs
  rw [List.mem_filterMap]
  exact ⟨_, hm, rfl⟩

theorem mem_trace_cases (env : Env) (fl : Flags) (files : List FileInfo) (s : State)
    (h : Inv env fl files s) (e : Event) (he : e ∈ callsIn s.trace) :
    e ∈ mainCalls fl s ∨ e ∈ waiterCalls s ∨ ∃ f ∈ dispatched s, e ∈ workerProg env fl f := by
  have hm : e ∈ s.trace.map (fun x => x.2) ++ (s.workers.map Worker.rest).flatten :=
    List.mem_append_left _ he
  have hm2 := (h.perm.mem_iff).mp hm
  simp only [List.mem_append, List.mem_flatten, List.mem_map] at hm2
  rcases hm2 with (hm2 | hm2) | ⟨l, ⟨w, hw, rfl⟩, hl⟩
  · exact Or.inl hm2
  · exact Or.inr (Or.inl hm2)
  · exact Or.inr (Or.inr ⟨w.file, by simp only [dispatched, List.mem_map]; exact ⟨w, hw, rfl⟩, hl⟩)

theorem resize_not_mem_mainCalls (fl : Flags) (s : State) (w h : Nat) :
    Event.resize w h ∉ mainCalls fl s := by
  unfold mainCalls
  simp only [List.mem_append, List.mem_replicate]
  split <;> simp

theorem resize_not_mem_waiterCalls (s : State) (w h : Nat) :
    Event.resize w h ∉ waiterCalls s := by
  unfold waiterCalls
  split <;> simp

theorem imagesEncoded_mem_trace (env : Env) (fl : Flags) (files : List FileInfo) (s : State)
    (h : Inv env fl files s) (p : Str) (img : Image)
    (hmem : (p, img) ∈ imagesEncoded (callsIn s.trace)) :
    ∃ f ∈ dispatched s, (p, img) ∈ imagesEncoded (jobResult env fl f).1 := by
  unfold imagesEncoded at hmem
  rw [List.mem_filterMap] at hmem
  obtain ⟨e, he, hm⟩ := hmem
  rcases mem_trace_cases env fl files s h e he with h1 | h1 | ⟨f, hf, h1⟩
  · unfold mainCalls at h1
    simp only [List.mem_append, List.mem_cons, List.mem_replicate, List.mem_singleton,
      List.not_mem_nil, or_false] at h1
    rcases h1 with (h1 | h1) | h1
    · rcases h1 with rfl | rfl <;> simp at hm
    · obtain ⟨_, rfl⟩ := h1; simp at hm
    · split at h1
      · simp only [List.mem_singleton] at h1; subst h1; simp at hm
      · simp at h1
  · unfold waiterCalls at h1
    split at h1
    · simp at h1
    · simp at h1
    · simp only [List.mem_singleton] at h1; subst h1; simp at hm
    · simp only [List.mem_cons, List.mem_singleton, List.not_mem_nil, or_false] at h1
      rcases h1 with rfl | rfl <;> simp at hm
  · refine ⟨f, hf, ?_⟩
    simp only [workerProg, workerBody, List.mem_append, List.mem_singleton] at h1
    rcases h1 with (h1 | h1) | h1
    · unfold imagesEncoded
      rw [List.mem_filterMap]
      exact ⟨e, h1, hm⟩
    · subst h1; simp at hm
    · subst h1; simp at hm

/-- C3 (amended): for a requested width and height that pass validation and fit the
machine word, converting `uint` to `int` (line 65) and back to `uint` (line 97) gives the
requested value again, also above the largest signed value.  So `resizeImage` hands the
resampler exactly the requested pair whenever it reaches it, every call of the resampler
in every state a run can reach has the requested width and height, neither of them 0,
and every image handed to an encoder is the resampler's result for exactly these
dimensions.  The code does not itself force the size of that result: every image handed
to an encoder, in `resizeImage` and in every state a run can reach, has exactly the
requested width and height provided the resampler returns an image of the dimensions it
is handed. -/
theorem resampler_gets_requested_dimensions (env : Env) (fl : Flags)
    (files : List FileInfo) (sched : List Tid) (s : State)
    (hd : ReachesDispatch env fl files)
    (hw : fl.targetWidth < 2 ^ env.intSize) (hh : fl.targetHeight < 2 ^ env.intSize)
    (hx : exec env fl sched (mainInit env fl) = some s) :
    uintOfInt env.intSize (intOfUint env.intSize fl.targetWidth) = fl.targetWidth ∧
      uintOfInt env.intSize (intOfUint env.intSize fl.targetHeight) = fl.targetHeight ∧
      (∀ file, resizeArgs (jobResult env fl file).1 =
        if (env.osOpen (inputPath env fl file)).isNone && decodes env (inputPath env fl file)
        then [(fl.targetWidth, fl.targetHeight)] else []) ∧
      (∀ t w h, (t, Event.resize w h) ∈ s.trace →
        w = fl.targetWidth ∧ h = fl.targetHeight ∧ w ≠ 0 ∧ h ≠ 0) ∧
      (∀ file p img, (p, img) ∈ imagesEncoded (jobResult env fl file).1 →
        ∃ src, env.decode (inputPath env fl file) = .ok src ∧
          img = env.resize fl.targetWidth fl.targetHeight src) ∧
      (∀ p img, (p, img) ∈ imagesEncoded (callsIn s.trace) →
        ∃ file src, file ∈ files ∧ eligible env file = true ∧
          env.decode (inputPath env fl file) = .ok src ∧
          img = env.resize fl.targetWidth fl.targetHeight src) ∧
      ((∀ src, (env.resize fl.targetWidth fl.targetHeight src).dx = fl.targetWidth ∧
          (env.resize fl.targetWidth fl.targetHeight src).dy = fl.targetHeight) →
        (∀ file p img, (p, img) ∈ imagesEncoded (jobResult env fl file).1 →
          img.dx = fl.targetWidth ∧ img.dy = fl.targetHeight) ∧
        (∀ p img, (p, img) ∈ imagesEncoded (callsIn s.trace) →
          img.dx = fl.targetWidth ∧ img.dy = fl.targetHeight)) := by
  have rw1 := uintOfInt_intOfUint env.intSize fl.targetWidth hw
  have rh1 := uintOfInt_intOfUint env.intSize fl.targetHeight hh
  have hinv := inv_reachable env fl files s hd ⟨sched, hx⟩
  have hargs : ∀ file, resizeArgs (jobResult env fl file).1 =
      if (env.osOpen (inputPath env fl file)).isNone && decodes env (inputPath env fl file)
      then [(fl.targetWidth, fl.targetHeight)] else [] := by
    intro file
    unfold jobResult
    rw [resizeArgs_resizeImage, rw1, rh1]
  have henc : ∀ file p img, (p, img) ∈ imagesEncoded (jobResult env fl file).1 →
      ∃ src, env.decode (inputPath env fl file) = .ok src ∧
        img = env.resize fl.targetWidth fl.targetHeight src := by
    intro file p img hmem
    obtain ⟨_, src, hsrc, himg⟩ := imagesEncoded_resizeImage env _ _ _ _ p img hmem
    rw [rw1, rh1] at himg
    exact ⟨src, hsrc, himg⟩
  have hrun : ∀ p img, (p, img) ∈ imagesEncoded (callsIn s.trace) →
      ∃ file src, file ∈ files ∧ eligible env file = true ∧
        env.decode (inputPath env fl file) = .ok src ∧
        img = env.resize fl.targetWidth fl.targetHeight src := by
    intro p img hmem
    obtain ⟨f, hf, hfm⟩ := imagesEncoded_mem_trace env fl files s hinv p img hmem
    obtain ⟨src, hsrc, himg⟩ := henc f p img hfm
    have hjobs : f ∈ jobs env files := by
      have := hinv.jobsEq
      rw [← this]
      exact List.mem_append_left _ hf
    rw [jobs, List.mem_filter] at hjobs
    exact ⟨f, src, hjobs.1, hjobs.2, hsrc, himg⟩
  refine ⟨rw1, rh1, hargs, ?_, henc, hrun, ?_⟩
  · intro t w h hmem
    have hin : Event.resize w h ∈ callsIn s.trace := by
      unfold callsIn
      rw [List.mem_map]
      exact ⟨(t, Event.resize w h), hmem, rfl⟩
    rcases mem_trace_cases env fl files s hinv _ hin with h1 | h1 | ⟨f, _, h1⟩
    · exact absurd h1 (resize_not_mem_mainCalls fl s w h)
    · exact absurd h1 (resize_not_mem_waiterCalls s w h)
    · have h2 : Event.resize w h ∈ (jobResult env fl f).1 := by
        simp only [workerProg, workerBody, List.mem_append, List.mem_singleton,
          reduceCtorEq, or_false] at h1
        exact h1
      have h3 := mem_resizeArgs _ w h h2
      rw [hargs f] at h3
      split at h3
      · simp only [List.mem_singleton, Prod.mk.injEq] at h3
        obtain ⟨e1, e2⟩ := h3
        subst e1 e2
        exact ⟨rfl, rfl, hd.2.2.1, hd.2.2.2.1⟩
      · simp at h3
  · intro hres
    constructor
    · intro file p img hmem
      obtain ⟨src, _, himg⟩ := henc file p img hmem
      rw [himg]
      exact hres src
    · intro p img hmem
      obtain ⟨_, src, _, _, _, himg⟩ := hrun p img hmem
      rw [himg]
      exact hres src

theorem resampler_gets_requested_dimensions_witness :
    ReachesDispatch demoEnvIntBound demoFlagsHuge demoFiles ∧
      demoFlagsHuge.targetWidth < 2 ^ demoEnvIntBound.intSize ∧
      demoFlagsHuge.targetHeight < 2 ^ demoEnvIntBound.intSize ∧
      exec demoEnvIntBound demoFlagsHuge demoSchedOk (mainInit demoEnvIntBound demoFlagsHuge) =
        some demoFinalHuge ∧
      intOfUint 64 (2 ^ 63 + 5) = -9223372036854775803 ∧
      uintOfInt demoEnvIntBound.intSize
          (intOfUint demoEnvIntBound.intSize demoFlagsHuge.targetWidth) =
        demoFlagsHuge.targetWidth ∧
      resizeArgs (callsIn demoFinalHuge.trace) =
        [(9223372036854775813, 50), (9223372036854775813, 50)] ∧
      ReachesDispatch demoEnvOk demoFlags demoFiles ∧
      demoFlags.targetWidth < 2 ^ demoEnvOk.intSize ∧
      demoFlags.targetHeight < 2 ^ demoEnvOk.intSize ∧
      exec demoEnvOk demoFlags demoSchedOk (mainInit demoEnvOk demoFlags) = some demoFinalOk ∧
      (∀ src, (demoEnvOk.resize demoFlags.targetWidth demoFlags.targetHeight src).dx =
          demoFlags.targetWidth ∧
        (demoEnvOk.resize demoFlags.targetWidth demoFlags.targetHeight src).dy =
          demoFlags.targetHeight) ∧
      imagesEncoded (callsIn demoFinalOk.trace) =
        [("out/a.jpg".toList, ⟨50, 50, []⟩), ("out/B.PNG".toList, ⟨50, 50, []⟩)] ∧
      (∀ p img, (p, img) ∈ imagesEncoded (callsIn demoFinalOk.trace) →
        img.dx = demoFlags.targetWidth ∧ img.dy = demoFlags.targetHeight) :=
  ⟨⟨by decide, by decide, by decide, by decide, rfl, rfl⟩, by decide, by decide, by decide,
    by decide,
    (resampler_gets_requested_dimensions demoEnvIntBound demoFlagsHuge demoFiles demoSchedOk
      demoFinalHuge ⟨by decide, by decide, by decide, by decide, rfl, rfl⟩ (by decide)
      (by decide) (by decide)).1,
    by decide,
    ⟨by decide, by decide, by decide, by decide, rfl, rfl⟩, by decide, by decide, by decide,
    fun _ => ⟨rfl, rfl⟩,
    by decide,
    ((resampler_gets_requested_dimensions demoEnvOk demoFlags demoFiles demoSchedOk
      demoFinalOk ⟨by decide, by decide, by decide, by decide, rfl, rfl⟩ (by decide)
      (by decide) (by decide)).2.2.2.2.2.2 (fun _ => ⟨rfl, rfl⟩)).2⟩

/-- C3 as stated fails above the largest signed value.  On a 64-bit platform the width
9223372036854775813 passes validation and reaches the resampler unchanged, and the bounds
of an image are `int`s, so no image has this width.  With a resampler that returns an image
of the requested size whenever both dimensions fit an `int`, the complete run hands the
encoders images of 4 by 3, the size of the decoded inputs: the processed images do not
have the requested size. -/
theorem requested_size_not_forced_above_max_int :
    ReachesDispatch demoEnvIntBound demoFlagsHuge demoFiles ∧
      demoFlagsHuge.targetWidth = 9223372036854775813 ∧
      demoFlagsHuge.targetWidth < 2 ^ demoEnvIntBound.intSize ∧
      2 ^ (demoEnvIntBound.intSize - 1) ≤ demoFlagsHuge.targetWidth ∧
      exec demoEnvIntBound demoFlagsHuge demoSchedOk (mainInit demoEnvIntBound demoFlagsHuge) =
        some demoFinalHuge ∧
      demoFinalHuge.pc = .returned ∧
      resizeArgs (callsIn demoFinalHuge.trace) =
        [(9223372036854775813, 50), (9223372036854775813, 50)] ∧
      imagesEncoded (callsIn demoFinalHuge.trace) =
        [("out/a.jpg".toList, ⟨4, 3, []⟩), ("out/B.PNG".toList, ⟨4, 3, []⟩)] ∧
      ¬ (∀ p img, (p, img) ∈ imagesEncoded (callsIn demoFinalHuge.trace) →
        img.dx = demoFlagsHuge.targetWidth ∧ img.dy = demoFlagsHuge.targetHeight) ∧
      (∀ img : Image, img.dx < 2 ^ (demoEnvIntBound.intSize - 1) →
        img.dx ≠ demoFlagsHuge.targetWidth) :=
  ⟨⟨by decide, by decide, by decide, by decide, rfl, rfl⟩, by decide, by decide, by decide,
    by decide, by decide, by decide, by decide,
    fun h => absurd (h "out/a.jpg".toList ⟨4, 3, []⟩ (by decide)).1 (by decide),
    fun img himg heq => by
      have h1 : demoFlagsHuge.targetWidth = 2 ^ 63 + 5 := rfl
      have h2 : demoEnvIntBound.intSize - 1 = 63 := rfl
      rw [h2] at himg
      rw [heq, h1] at himg
      omega⟩

/-! ## Outcomes of a complete run -/

theorem closed_of_returned (env : Env) (fl : Flags) (files : List FileInfo) (s : State)
    (h : Inv env fl files s) (hret : s.pc = .returned) : s.doneClosed = true :=
  (h.returnedLast hret).1

/-- C8: at the end of every run that reached the loop, whatever the schedule, the status
lines written are, up to order, one line per dispatched job, so their number is the
number of jobs; the worker of a job wrote exactly one line, the success line with the
file name when its `resizeImage` returned no error and the error line with the file name
and the cause otherwise. -/
theorem one_status_line_per_job (env : Env) (fl : Flags) (files : List FileInfo)
    (sched : List Tid) (s : State) (hd : ReachesDispatch env fl files)
    (hx : exec env fl sched (mainInit env fl) = some s) (hret : s.pc = .returned) :
    (linesOf (callsIn s.trace)).length = (dispatched s).length ∧
      (linesOf (callsIn s.trace)).Perm
        ((dispatched s).map (fun f => statusLine f.name (jobResult env fl f).2)) ∧
      (∀ i w, s.workers[i]? = some w →
        linesOf (callsOf (.worker i) s.trace) =
          [statusLine w.file.name (jobResult env fl w.file).2]) ∧
      (∀ name, statusLine name none =
        "Successfully resized: ".toList ++ name ++ "\n".toList) ∧
      (∀ name cause, statusLine name (some cause) =
        "Error resizing image ".toList ++ name ++ ": ".toList ++ cause ++ "\n".toList) := by
  have hinv := inv_reachable env fl files s hd ⟨sched, hx⟩
  have hcl := closed_of_returned env fl files s hinv hret
  have hdis := dispatched_of_not_loop env fl files s hinv (by rw [hret]; simp)
  have hperm := linesOf_perm_of_closed env fl files s hinv hcl
  rw [← hdis] at hperm
  refine ⟨?_, hperm, ?_, fun _ => rfl, fun _ _ => rfl⟩
  · rw [hperm.length_eq, List.length_map]
  · intro i w hi
    rw [calls_of_closed env fl files s hinv hcl i w hi, linesOf_workerProg]

theorem one_status_line_per_job_witness :
    ReachesDispatch demoEnv demoFlags demoFiles ∧
      exec demoEnv demoFlags demoSched (mainInit demoEnv demoFlags) = some demoFinal ∧
      demoFinal.pc = .returned ∧
      (linesOf (callsIn demoFinal.trace)).length = (dispatched demoFinal).length ∧
      linesOf (callsIn demoFinal.trace) =
        ["Successfully resized: B.PNG\n".toList,
          "Error resizing image a.jpg: image: unknown format\n".toList] :=
  ⟨⟨by decide, by decide, by decide, by decide, rfl, rfl⟩, by decide, by decide,
    (one_status_line_per_job demoEnv demoFlags demoFiles demoSched demoFinal
      ⟨by decide, by decide, by decide, by decide, rfl, rfl⟩ (by decide) (by decide)).1,
    by decide⟩

/-- C2 (amended): at the end of every run that reached the loop, exactly one job was
dispatched for every eligible entry; its first call opens the input directory joined with
the entry's unchanged name; it created the file whose path is the output directory joined with that name,
once, when the input opened and decoded and `os.Create` succeeded, and it created no
file otherwise.  The files created in the whole run are, up to order, these output
paths. -/
theorem one_output_per_decoded_job (env : Env) (fl : Flags) (files : List FileInfo)
    (sched : List Tid) (s : State) (hd : ReachesDispatch env fl files)
    (hx : exec env fl sched (mainInit env fl) = some s) (hret : s.pc = .returned) :
    dispatched s = files.filter (eligible env) ∧
      (filesCreated (callsIn s.trace)).Perm
        (((files.filter (eligible env)).filter (createsOutput env fl)).map
          (fun f => env.join fl.outputDir f.name)) ∧
      (∀ i w, s.workers[i]? = some w →
        (callsOf (.worker i) s.trace).head? =
            some (.osOpen (env.join fl.inputDir w.file.name)
              (env.osOpen (env.join fl.inputDir w.file.name))) ∧
          filesCreated (callsOf (.worker i) s.trace) =
            if createsOutput env fl w.file then [env.join fl.outputDir w.file.name]
            else []) := by
  have hinv := inv_reachable env fl files s hd ⟨sched, hx⟩
  have hcl := closed_of_returned env fl files s hinv hret
  have hdis := dispatched_of_not_loop env fl files s hinv (by rw [hret]; simp)
  refine ⟨hdis, filesCreated_perm_of_closed env fl files s hinv hcl, ?_⟩
  intro i w hi
  rw [calls_of_closed env fl files s hinv hcl i w hi]
  constructor
  · have := head_resizeImage env (inputPath env fl w.file) (outputPath env fl w.file)
      (intOfUint env.intSize fl.targetWidth) (intOfUint env.intSize fl.targetHeight)
    simp only [workerProg, workerBody, jobResult, List.append_assoc]
    rw [List.head?_append, this]
    rfl
  · exact filesCreated_workerProg env fl w.file

theorem one_output_per_decoded_job_witness :
    ReachesDispatch demoEnv demoFlags demoFiles ∧
      exec demoEnv demoFlags demoSched (mainInit demoEnv demoFlags) = some demoFinal ∧
      demoFinal.pc = .returned ∧
      dispatched demoFinal = demoFiles.filter (eligible demoEnv) ∧
      filesCreated (callsIn demoFinal.trace) = ["out/B.PNG".toList] :=
  ⟨⟨by decide, by decide, by decide, by decide, rfl, rfl⟩, by decide, by decide,
    (one_output_per_decoded_job demoEnv demoFlags demoFiles demoSched demoFinal
      ⟨by decide, by decide, by decide, by decide, rfl, rfl⟩ (by decide) (by decide)).1,
    by decide⟩

/-- C2 as stated fails: `a.jpg` is an eligible entry of the listing, its content does not
decode, and the complete run creates no file at its output path. -/
theorem eligible_file_without_output :
    ReachesDispatch demoEnv demoFlags demoFiles ∧
      exec demoEnv demoFlags demoSched (mainInit demoEnv demoFlags) = some demoFinal ∧
      demoFinal.pc = .returned ∧
      (⟨"a.jpg".toList, false⟩ : FileInfo) ∈ demoFiles ∧
      eligible demoEnv ⟨"a.jpg".toList, false⟩ = true ∧
      outputPath demoEnv demoFlags ⟨"a.jpg".toList, false⟩ = "out/a.jpg".toList ∧
      "out/a.jpg".toList ∉ filesCreated (callsIn demoFinal.trace) :=
  ⟨⟨by decide, by decide, by decide, by decide, rfl, rfl⟩, by decide, by decide, by decide,
    by decide, by decide, by decide⟩

/-- C6 (amended): at the end of every run that reached the loop, an entry that does not
pass the guard of line 56 (a directory, or a name such as `c.txt`) has no job: every line
written is the status line of an eligible entry and every file created is the output of
an eligible entry, so nothing is created and nothing is reported for it.  An eligible
entry whose input cannot be opened, or opens and does not decode, has no output file
created, and its worker writes exactly one line, the error line with its name and the
cause. -/
theorem skipped_or_failed_entries (env : Env) (fl : Flags) (files : List FileInfo)
    (sched : List Tid) (s : State) (hd : ReachesDispatch env fl files)
    (hx : exec env fl sched (mainInit env fl) = some s) (hret : s.pc = .returned) :
    (∀ file, eligible env file = false → file ∉ dispatched s) ∧
      (∀ line ∈ linesOf (callsIn s.trace), ∃ f ∈ files, eligible env f = true ∧
        line = statusLine f.name (jobResult env fl f).2) ∧
      (∀ p ∈ filesCreated (callsIn s.trace), ∃ f ∈ files, eligible env f = true ∧
        p = env.join fl.outputDir f.name) ∧
      (∀ i w cause, s.workers[i]? = some w →
        (env.osOpen (env.join fl.inputDir w.file.name) = some cause ∨
          (env.osOpen (env.join fl.inputDir w.file.name) = none ∧
            env.decode (env.join fl.inputDir w.file.name) = .error cause)) →
        filesCreated (callsOf (.worker i) s.trace) = [] ∧
          linesOf (callsOf (.worker i) s.trace) =
            ["Error resizing image ".toList ++ w.file.name ++ ": ".toList ++ cause ++
              "\n".toList]) := by
  have hinv := inv_reachable env fl files s hd ⟨sched, hx⟩
  have hcl := closed_of_returned env fl files s hinv hret
  have hdis := dispatched_of_not_loop env fl files s hinv (by rw [hret]; simp)
  refine ⟨?_, ?_, ?_, ?_⟩
  · intro file hne hmem
    rw [hdis, jobs, List.mem_filter] at hmem
    rw [hmem.2] at hne
    cases hne
  · intro line hl
    have := (linesOf_perm_of_closed env fl files s hinv hcl).mem_iff.mp hl
    simp only [List.mem_map, jobs, List.mem_filter] at this
    obtain ⟨f, ⟨hf, he⟩, rfl⟩ := this
    exact ⟨f, hf, he, rfl⟩
  · intro p hp
    have := (filesCreated_perm_of_closed env fl files s hinv hcl).mem_iff.mp hp
    simp only [List.mem_map, jobs, List.mem_filter] at this
    obtain ⟨f, ⟨⟨hf, he⟩, _⟩, rfl⟩ := this
    exact ⟨f, hf, he, rfl⟩
  · intro i w cause hi hfail
    rw [calls_of_closed env fl files s hinv hcl i w hi, filesCreated_workerProg,
      linesOf_workerProg]
    have hres : (jobResult env fl w.file).2 = some cause := by
      rcases hfail with ho | ⟨ho, hdec⟩
      · exact error_resizeImage_of_not_opened env _ _ _ _ cause ho
      · exact error_resizeImage_of_not_decoded env _ _ _ _ cause ho hdec
    have hno : createsOutput env fl w.file = false := by
      unfold createsOutput decodes inputPath
      rcases hfail with ho | ⟨ho, hdec⟩
      · simp [ho]
      · simp [ho, hdec]
    rw [hres, hno]
    exact ⟨rfl, rfl⟩

theorem skipped_or_failed_entries_witness :
    ReachesDispatch demoEnv demoFlags demoFiles ∧
      exec demoEnv demoFlags demoSched (mainInit demoEnv demoFlags) = some demoFinal ∧
      demoFinal.pc = .returned ∧
      demoFinal.workers[0]? = some ⟨⟨"a.jpg".toList, false⟩, [], true⟩ ∧
      demoEnv.decode "in/a.jpg".toList = .error "image: unknown format".toList ∧
      (filesCreated (callsOf (.worker 0) demoFinal.trace) = [] ∧
        linesOf (callsOf (.worker 0) demoFinal.trace) =
          ["Error resizing image ".toList ++ "a.jpg".toList ++ ": ".toList ++
            "image: unknown format".toList ++ "\n".toList]) :=
  ⟨⟨by decide, by decide, by decide, by decide, rfl, rfl⟩, by decide, by decide, by decide,
    rfl,
    (skipped_or_failed_entries demoEnv demoFlags demoFiles demoSched demoFinal
      ⟨by decide, by decide, by decide, by decide, rfl, rfl⟩ (by decide) (by decide)).2.2.2
      0 ⟨⟨"a.jpg".toList, false⟩, [], true⟩ "image: unknown format".toList (by decide)
      (Or.inr ⟨rfl, rfl⟩)⟩

/-- C6 as stated fails: `c.txt` is an entry of the listing that is not an image, and the
complete run writes two lines, neither of which mentions `c.txt`: no error is reported
for it. -/
theorem skipped_entry_not_reported :
    ReachesDispatch demoEnv demoFlags demoFiles ∧
      exec demoEnv demoFlags demoSched (mainInit demoEnv demoFlags) = some demoFinal ∧
      demoFinal.pc = .returned ∧
      (⟨"c.txt".toList, false⟩ : FileInfo) ∈ demoFiles ∧
      linesOf (callsIn demoFinal.trace) =
        ["Successfully resized: B.PNG\n".toList,
          "Error resizing image a.jpg: image: unknown format\n".toList] ∧
      (∀ line ∈ linesOf (callsIn demoFinal.trace), ¬ ("c.txt".toList <:+: line)) :=
  ⟨⟨by decide, by decide, by decide, by decide, rfl, rfl⟩, by decide, by decide, by decide,
    by decide, by decide⟩

/-! ## Isolation of a job -/

theorem resizeImage_agree (env1 env2 : Env) (inP outP : Str) (w h : Int)
    (h1 : env1.intSize = env2.intSize) (h2 : env1.unicodeLower = env2.unicodeLower)
    (h3 : env1.resize = env2.resize) (h4 : env1.osOpen inP = env2.osOpen inP)
    (h5 : env1.decode inP = env2.decode inP) (h6 : env1.osCreate outP = env2.osCreate outP)
    (h7 : env1.pngEncode outP = env2.pngEncode outP)
    (h8 : env1.jpegEncode outP = env2.jpegEncode outP) :
    resizeImage env1 inP outP w h = resizeImage env2 inP outP w h := by
  unfold resizeImage
  rw [h1, h2, h3, h4, h5, h6, h7, h8]

theorem jobResult_agree (env1 env2 : Env) (fl : Flags) (f g : FileInfo)
    (hag : AgreeExcept env1 env2 (inputPath env1 fl f) (outputPath env1 fl f))
    (hin : inputPath env1 fl g ≠ inputPath env1 fl f)
    (hout : outputPath env1 fl g ≠ outputPath env1 fl f) :
    jobResult env1 fl g = jobResult env2 fl g := by
  obtain ⟨h1, h2, h3, h4, _, _, h7, h8⟩ := hag
  have e1 : inputPath env2 fl g = inputPath env1 fl g := by simp [inputPath, h3]
  have e2 : outputPath env2 fl g = outputPath env1 fl g := by simp [outputPath, h3]
  unfold jobResult
  rw [e1, e2, ← h1]
  exact resizeImage_agree env1 env2 _ _ _ _ h1 h2 h4 (h7 _ hin).1 (h7 _ hin).2
    (h8 _ hout).1 (h8 _ hout).2.1 (h8 _ hout).2.2

theorem eligible_agree (env1 env2 : Env) (h : env1.unicodeLower = env2.unicodeLower)
    (file : FileInfo) : eligible env1 file = eligible env2 file := by
  unfold eligible
  rw [h]

/-- C7: take two environments that differ at most in how the calls on the input and the
output path of one entry `f` turn out (its open, decode, create or encode may succeed in
one and fail in the other), and a complete run in each.  Both runs dispatched the same
jobs, the eligible entries of the listing; and for every other job, whose paths are not
those of `f`, `resizeImage` returned the same result and the worker made the same calls
with the same results, hence created the same file and wrote the same status line.
Neither run is cut short: from every state either run can reach, some schedule leads to
the return of `main` with all jobs dispatched. -/
theorem job_failure_is_isolated (env1 env2 : Env) (fl : Flags) (files : List FileInfo)
    (f : FileInfo) (sched1 sched2 : List Tid) (s1 s2 : State)
    (hd : ReachesDispatch env1 fl files)
    (hag : AgreeExcept env1 env2 (inputPath env1 fl f) (outputPath env1 fl f))
    (hx1 : exec env1 fl sched1 (mainInit env1 fl) = some s1) (hret1 : s1.pc = .returned)
    (hx2 : exec env2 fl sched2 (mainInit env2 fl) = some s2) (hret2 : s2.pc = .returned) :
    dispatched s1 = files.filter (eligible env1) ∧
      dispatched s2 = dispatched s1 ∧
      (∀ i w, s1.workers[i]? = some w →
        inputPath env1 fl w.file ≠ inputPath env1 fl f →
        outputPath env1 fl w.file ≠ outputPath env1 fl f →
        jobResult env1 fl w.file = jobResult env2 fl w.file ∧
          callsOf (.worker i) s2.trace = callsOf (.worker i) s1.trace) ∧
      (∀ s, Reachable env1 fl s →
        ∃ sched s', exec env1 fl sched s = some s' ∧ s'.pc = .returned ∧
          dispatched s' = files.filter (eligible env1)) ∧
      (∀ s, Reachable env2 fl s →
        ∃ sched s', exec env2 fl sched s = some s' ∧ s'.pc = .returned ∧
          dispatched s' = files.filter (eligible env1)) := by
  have hd2 : ReachesDispatch env2 fl files := by
    obtain ⟨a1, a2, a3, a4, a5, a6⟩ := hd
    obtain ⟨_, _, _, _, b5, b6, _, _⟩ := hag
    exact ⟨a1, a2, a3, a4, by rw [← b5]; exact a5, by rw [← b6]; exact a6⟩
  have hel : eligible env2 = eligible env1 :=
    funext (fun file => (eligible_agree env1 env2 hag.2.1 file).symm)
  have hinv1 := inv_reachable env1 fl files s1 hd ⟨sched1, hx1⟩
  have hinv2 := inv_reachable env2 fl files s2 hd2 ⟨sched2, hx2⟩
  have hcl1 := closed_of_returned env1 fl files s1 hinv1 hret1
  have hcl2 := closed_of_returned env2 fl files s2 hinv2 hret2
  have hdis1 : dispatched s1 = files.filter (eligible env1) :=
    dispatched_of_not_loop env1 fl files s1 hinv1 (by rw [hret1]; simp)
  have hdis2 : dispatched s2 = files.filter (eligible env1) := by
    have := dispatched_of_not_loop env2 fl files s2 hinv2 (by rw [hret2]; simp)
    rw [jobs, hel] at this
    exact this
  refine ⟨hdis1, by rw [hdis1, hdis2], ?_, ?_, ?_⟩
  · intro i w hi hin hout
    have hres := jobResult_agree env1 env2 fl f w.file hag hin hout
    refine ⟨hres, ?_⟩
    have hfile : (s2.workers.map (fun w => w.file))[i]? = some w.file := by
      have h12 : dispatched s2 = dispatched s1 := by rw [hdis1, hdis2]
      unfold dispatched at h12
      rw [h12, List.getElem?_map, hi]
      rfl
    rw [List.getElem?_map] at hfile
    cases hw2 : s2.workers[i]? with
    | none => rw [hw2] at hfile; cases hfile
    | some w2 =>
      rw [hw2] at hfile
      simp only [Option.map_some', Option.some.injEq] at hfile
      rw [calls_of_closed env1 fl files s1 hinv1 hcl1 i w hi,
        calls_of_closed env2 fl files s2 hinv2 hcl2 i w2 hw2, hfile]
      simp only [workerProg, workerBody, hres]
  · intro s hr
    have hinv := inv_reachable env1 fl files s hd hr
    obtain ⟨sched, s', hx, hret⟩ := exists_complete_run env1 fl files s hinv
    exact ⟨sched, s', hx, hret,
      dispatched_of_not_loop env1 fl files s' (inv_exec env1 fl files sched s s' hinv hx)
        (by rw [hret]; simp)⟩
  · intro s hr
    have hinv := inv_reachable env2 fl files s hd2 hr
    obtain ⟨sched, s', hx, hret⟩ := exists_complete_run env2 fl files s hinv
    have := dispatched_of_not_loop env2 fl files s' (inv_exec env2 fl files sched s s' hinv hx)
        (by rw [hret]; simp)
    rw [jobs, hel] at this
    exact ⟨sched, s', hx, hret, this⟩

theorem job_failure_is_isolated_witness :
    ReachesDispatch demoEnv demoFlags demoFiles ∧
      AgreeExcept demoEnv demoEnvOk (inputPath demoEnv demoFlags ⟨"a.jpg".toList, false⟩)
        (outputPath demoEnv demoFlags ⟨"a.jpg".toList, false⟩) ∧
      exec demoEnv demoFlags demoSched (mainInit demoEnv demoFlags) = some demoFinal ∧
      demoFinal.pc = .returned ∧
      exec demoEnvOk demoFlags demoSchedOk (mainInit demoEnvOk demoFlags) = some demoFinalOk ∧
      demoFinalOk.pc = .returned ∧
      (jobResult demoEnv demoFlags ⟨"a.jpg".toList, false⟩).2 =
        some "image: unknown format".toList ∧
      (jobResult demoEnvOk demoFlags ⟨"a.jpg".toList, false⟩).2 = none ∧
      dispatched demoFinalOk = dispatched demoFinal ∧
      callsOf (.worker 1) demoFinalOk.trace = callsOf (.worker 1) demoFinal.trace :=
  have hag : AgreeExcept demoEnv demoEnvOk
      (inputPath demoEnv demoFlags ⟨"a.jpg".toList, false⟩)
      (outputPath demoEnv demoFlags ⟨"a.jpg".toList, false⟩) :=
    ⟨rfl, rfl, rfl, rfl, rfl, rfl,
      fun p hp => ⟨rfl, by
        have hp2 : ¬ p = ['i', 'n', '/', 'a', '.', 'j', 'p', 'g'] := hp
        simp [demoEnv, demoEnvOk, hp2]⟩,
      fun _ _ => ⟨rfl, rfl, rfl⟩⟩
  have hthm := job_failure_is_isolated demoEnv demoEnvOk demoFlags demoFiles
    ⟨"a.jpg".toList, false⟩ demoSched demoSchedOk demoFinal demoFinalOk
    ⟨by decide, by decide, by decide, by decide, rfl, rfl⟩ hag (by decide) (by decide)
    (by decide) (by decide)
  ⟨⟨by decide, by decide, by decide, by decide, rfl, rfl⟩, hag, by decide, by decide,
    by decide, by decide, by decide, by decide, hthm.2.1,
    (hthm.2.2.1 1 ⟨⟨"B.PNG".toList, false⟩, [], true⟩ (by decide) (by decide)
      (by decide)).2⟩

/-! ## The completion gate -/

theorem exec_append (env : Env) (fl : Flags) (a b : List Tid) (s : State) :
    exec env fl (a ++ b) s = (exec env fl a s).bind (exec env fl b) := by
  induction a generalizing s with
  | nil => rfl
  | cons t ts ih =>
    simp only [List.cons_append, exec]
    cases step env fl s t with
    | none => rfl
    | some s1 => exact ih s1

theorem exec_skip_all (env : Env) (fl : Flags) (s : State) (hpc : s.pc = .loop)
    (hall : ∀ f ∈ s.pending, eligible env f = false) :
    exec env fl (List.replicate s.pending.length .main) s = some { s with pending := [] } := by
  generalize hp : s.pending = pend
  induction pend generalizing s with
  | nil =>
    simp only [List.length_nil, List.replicate_zero, exec]
    rw [← hp]
  | cons f rest ih =>
    have hel : eligible env f = false := hall f (by rw [hp]; simp)
    have hstep : step env fl s .main = some { s with pending := rest } :=
      step_complete env fl s _ .main (Step.skip s f rest hpc hp hel)
    simp only [List.length_cons, List.replicate_succ, exec, hstep]
    have := ih { s with pending := rest } hpc
      (fun g hg => hall g (by rw [hp]; exact List.mem_cons_of_mem _ hg)) rfl
    exact this

theorem exec_no_jobs (env : Env) (fl : Flags) (files : List FileInfo)
    (hd : ReachesDispatch env fl files) (hnone : jobs env files = []) :
    exec env fl (List.replicate files.length .main ++ [.main, .waiter, .waiter, .main])
        (mainInit env fl) =
      some { pc := .returned, pending := [], workers := [], counter := 0,
             waiter := .finished, doneClosed := true,
             trace := [(.main, .readDir fl.inputDir none), (.main, .mkdirAll fl.outputDir none),
               (.waiter, .wgWait), (.waiter, .closeDone), (.main, .recvDone)] } := by
  have hall : ∀ f ∈ files, eligible env f = false := by
    intro f hf
    unfold jobs at hnone
    rw [List.filter_eq_nil_iff] at hnone
    simpa using hnone f hf
  rw [mainInit_of_reachesDispatch env fl files hd, exec_append]
  have := exec_skip_all env fl
    { pc := .loop, pending := files, workers := [], counter := 0,
      waiter := .notStarted, doneClosed := false,
      trace := [(.main, .readDir fl.inputDir none), (.main, .mkdirAll fl.outputDir none)] }
    rfl hall
  simp only at this
  rw [this]
  simp [exec, step]

/-- C10: in every state a run that reached the loop can reach, under every schedule, with
N the number of eligible entries of the listing:
the channel `done` is closed only when all N workers have been started and each has run
`wg.Done`, N signals in all; `close(done)` has run at most once; when `main` is past the
receive of line 81, that receive is the last call of the run and before it there are
exactly N `wg.Done` calls and exactly one `close(done)`; a run is never stuck, since some
goroutine can step as long as `main` has not returned; every run is finite, the schedule
so far and the steps left adding up to the same number; and some schedule completes the
run from the state.  When N is 0 the schedule in which `main` visits the entries and the
waiter then runs at once, with no worker step, ends with `main` returned. -/
theorem completion_gate (env : Env) (fl : Flags) (files : List FileInfo)
    (sched : List Tid) (s : State) (hd : ReachesDispatch env fl files)
    (hx : exec env fl sched (mainInit env fl) = some s) :
    (s.doneClosed = true →
        dispatched s = files.filter (eligible env) ∧
          (∀ w ∈ s.workers, w.done = true ∧ w.todo = []) ∧
          (callsIn s.trace).count .wgDone = (files.filter (eligible env)).length) ∧
      (callsIn s.trace).count .closeDone ≤ 1 ∧
      (s.pc = .returned →
        ∃ tr, s.trace = tr ++ [(.main, .recvDone)] ∧
          (callsIn tr).count .wgDone = (files.filter (eligible env)).length ∧
          (callsIn tr).count .closeDone = 1) ∧
      (s.pc ≠ .returned → ∃ t s', step env fl s t = some s') ∧
      sched.length + fuel env fl s = fuel env fl (mainInit env fl) ∧
      (∃ sched' s', exec env fl sched' s = some s' ∧ s'.pc = .returned) ∧
      (files.filter (eligible env) = [] →
        ∃ s', exec env fl (List.replicate files.length .main ++ [.main, .waiter, .waiter, .main])
            (mainInit env fl) = some s' ∧
          s'.pc = .returned ∧ callsOf .waiter s'.trace = [.wgWait, .closeDone] ∧
          (callsIn s'.trace).count .wgDone = 0) := by
  have hinv0 := inv_init env fl files hd
  have hinv := inv_reachable env fl files s hd ⟨sched, hx⟩
  refine ⟨?_, ?_, ?_, ?_, ?_, ?_, ?_⟩
  · intro hcl
    have hc := hinv.wokenZero (Or.inr (hinv.closedIff.mp hcl))
    exact ⟨dispatched_of_not_loop env fl files s hinv (closed_not_loop env fl files s hinv hcl),
      all_done_of_counter_zero env fl files s hinv hc,
      count_wgDone_of_closed env fl files s hinv hcl⟩
  · rw [count_closeDone env fl files s hinv]
    split <;> simp
  · intro hret
    obtain ⟨hcl, tr, htr⟩ := hinv.returnedLast hret
    refine ⟨tr, htr, ?_, ?_⟩
    · have := count_wgDone_of_closed env fl files s hinv hcl
      rw [htr] at this
      simpa [callsIn, jobs] using this
    · have := count_closeDone env fl files s hinv
      rw [htr, hcl] at this
      simpa [callsIn] using this
  · exact progress env fl files s hinv
  · have := fuel_exec env fl files sched _ s hinv0 hx
    omega
  · exact exists_complete_run env fl files s hinv
  · intro hnone
    refine ⟨_, exec_no_jobs env fl files hd hnone, rfl, ?_, ?_⟩
    · simp [callsOf]
    · simp [callsIn]

theorem completion_gate_witness :
    ReachesDispatch demoEnv demoFlags demoFiles ∧
      exec demoEnv demoFlags demoSched (mainInit demoEnv demoFlags) = some demoFinal ∧
      demoFinal.pc = .returned ∧
      (demoFiles.filter (eligible demoEnv)).length = 2 ∧
      (∃ tr, demoFinal.trace = tr ++ [(.main, .recvDone)] ∧
        (callsIn tr).count .wgDone = (demoFiles.filter (eligible demoEnv)).length ∧
        (callsIn tr).count .closeDone = 1) :=
  ⟨⟨by decide, by decide, by decide, by decide, rfl, rfl⟩, by decide, by decide, by decide,
    (completion_gate demoEnv demoFlags demoFiles demoSched demoFinal
      ⟨by decide, by decide, by decide, by decide, rfl, rfl⟩ (by decide)).2.2.1 (by decide)⟩

end ImageResizer
